import Mathlib

/-!
# Verification of the merklist binary Merkle vector engine and SSZ packed codec

Shallow embedding of `src/vector.rs` (the `Vector` engine) and
`le/src/elemental_fixed.rs` (the SSZ packed vector codec).

The engine treats its 32-byte hash as an opaque, deterministic,
collision-resistant function supplied by the backend (spec §6), so the
embedding models `Intermediate(H(l ‖ r))` as an injective constructor
`Val.Intermediate l r`: a backend key is identified with the `(left, right)`
pair it is the content-address of.  The backend store is then a multiset of
such keys, one copy per refcount unit.

The crates `raw.rs`, `index.rs`, `traits.rs` (the `Raw` tree, `Index`
algebra and the backend contract) and `bm::utils` / `PackedVector` are not
part of the provided sources; definitions for them below are modelled from
the spec (§4.1, §4.2, §4.3, §4.6, §6) and are marked as such.
-/

namespace Merklist

/-- A byte string, one `Nat` per byte. -/
abbrev Bytes := List Nat

/-- The all-zero 32-byte string `0×32`. -/
def zeroBytes : Bytes := List.replicate 32 0

/-- `Value` from the data model (spec §3): an `End` leaf payload, or an
`Intermediate` backend key.  The key of an intermediate node is the
content-address `H(left ‖ right)`; since the engine only ever treats the
hash as opaque, deterministic and collision-free, the key is modelled as
the `(left, right)` pair itself, i.e. `Intermediate` is an injective
constructor taking the two children. -/
inductive Val : Type where
  | End : Bytes → Val
  | Intermediate : Val → Val → Val
deriving DecidableEq

/-- The backend node store (spec §6): for each key, the persisted record is
the `(left, right)` pair (recoverable from the key in this model) plus a
refcount.  Modelled as a multiset of keys, one copy per refcount unit. -/
abbrev DB := Multiset (Val × Val)

/-- Error kinds surfaced by the engine (spec §7). -/
inductive VError : Type where
  | AccessOverflowed
  | InvalidParameter
  | CorruptedDatabase
deriving DecidableEq

instance {ε α : Type} [DecidableEq ε] [DecidableEq α] : DecidableEq (Except ε α) :=
  fun x y =>
    match x, y with
    | .ok a, .ok b =>
      if h : a = b then .isTrue (by rw [h])
      else .isFalse (by intro hh; cases hh; exact h rfl)
    | .ok _, .error _ => .isFalse (by intro hh; cases hh)
    | .error _, .ok _ => .isFalse (by intro hh; cases hh)
    | .error a, .error b =>
      if h : a = b then .isTrue (by rw [h])
      else .isFalse (by intro hh; cases hh; exact h rfl)

/-- Modelled from the spec: `WriteBackend.insert` (§6) as used by
`Raw::set` (§4.2) when retaining a root value.  Incrementing an `End`
contributes nothing.  Inserting an `Intermediate` whose key is already
present increments its refcount; inserting a fresh key stores it with
refcount 1 and takes a reference on each `Intermediate` child (left first,
then right), deep-inserting children that are themselves absent. -/
def insertV : Val → DB → DB
  | .End _, db => db
  | .Intermediate l r, db =>
    if 0 < db.count (l, r) then (l, r) ::ₘ db
    else (l, r) ::ₘ insertV r (insertV l db)

/-- Modelled from the spec: `WriteBackend.unrooted_decref` (§6):
decrementing frees at zero, recursively decref'ing the children (right
first, then left, the reverse of `insertV`). -/
def decrefV : Val → DB → DB
  | .End _, db => db
  | .Intermediate l r, db =>
    if 1 < db.count (l, r) then db.erase (l, r)
    else if db.count (l, r) = 1 then decrefV l (decrefV r (db.erase (l, r)))
    else db

/-- Modelled from the spec (§4.3): the memoized root of the all-zero
subtree of a given depth: `empty_at[0] = End(0×32)`,
`empty_at[d+1] = Intermediate(H(e_d ‖ e_d))`.  The memo table itself is a
process-wide cache of deterministic values (spec §9 "Global state"), so it
is modelled as this pure function; its one-off node insertions are not
replayed (`insertV` re-creates any missing empty node when a tree
referencing it is retained). -/
def emptyAt : Nat → Val
  | 0 => .End zeroBytes
  | d + 1 => .Intermediate (emptyAt d) (emptyAt d)

/-- Modelled from the spec (§4.2 `Raw::get`): walk the bit-path from the
root down `d` levels to offset `off`, fetching each intermediate from the
backend (`CorruptedDatabase` if its key is missing, spec §7), and
returning `none` if an `End` is encountered before arriving. -/
def walkGet (db : DB) : Val → Nat → Nat → Except VError (Option Val)
  | v, 0, _ => .ok (some v)
  | .End _, _ + 1, _ => .ok none
  | .Intermediate l r, d + 1, off =>
    if 0 < db.count (l, r) then
      if off < 2 ^ d then walkGet db l d off else walkGet db r d (off - 2 ^ d)
    else .error .CorruptedDatabase

/-- Modelled from the spec (§4.2 `Raw::set`, read phase): a `set` must
first read the old path top-down to know the displaced nodes and retained
siblings; a missing intermediate is `CorruptedDatabase`.  Encountering an
`End` early is not an error for `set` (the subtree below an `End` is
implicitly all-zero and is allocated fresh). -/
def walkChk (db : DB) : Val → Nat → Nat → Except VError Unit
  | _, 0, _ => .ok ()
  | .End _, _ + 1, _ => .ok ()
  | .Intermediate l r, d + 1, off =>
    if 0 < db.count (l, r) then
      if off < 2 ^ d then walkChk db l d off else walkChk db r d (off - 2 ^ d)
    else .error .CorruptedDatabase

/-- The purely structural part of `Raw::set` (spec §4.2): the new tree
value after replacing the node `d` levels below the root at offset `off`
with `v`.  Descending through an `End` allocates the implicit all-zero
children. -/
def setPure : Val → Nat → Nat → Val → Val
  | _, 0, _, v => v
  | .End _, d + 1, off, v =>
    if off < 2 ^ d then .Intermediate (setPure (.End zeroBytes) d off v) (.End zeroBytes)
    else .Intermediate (.End zeroBytes) (setPure (.End zeroBytes) d (off - 2 ^ d) v)
  | .Intermediate l r, d + 1, off, v =>
    if off < 2 ^ d then .Intermediate (setPure l d off v) r
    else .Intermediate l (setPure r d (off - 2 ^ d) v)

/-- The pure counterpart of `walkGet` (no backend reads); used to state
properties of trees independently of the store. -/
def getP : Val → Nat → Nat → Option Val
  | v, 0, _ => some v
  | .End _, _ + 1, _ => none
  | .Intermediate l r, d + 1, off =>
    if off < 2 ^ d then getP l d off else getP r d (off - 2 ^ d)

/-- Modelled from the spec (§4.2 `Raw::set`): read the old path (can fail
on a corrupted store, in which case nothing is mutated), then build the new
path, insert it (incrementing shared siblings), and decrement the displaced
old root, which recursively frees the displaced old path. -/
def rawSetD (db : DB) (t : Val) (d off : Nat) (v : Val) : Except VError (Val × DB) :=
  match walkChk db t d off with
  | .error e => .error e
  | .ok _ =>
    let t2 := setPure t d off v
    .ok (t2, decrefV t (insertV t2 db))

/-- Base-2 logarithm (position of the highest set bit, spec §4.1), with
explicit fuel so the recursion is structural; a fuel of `i` never runs out
since the argument halves each iteration. -/
def log2Loop : Nat → Nat → Nat
  | 0, _ => 0
  | fuel + 1, n => if 2 ≤ n then log2Loop fuel (n / 2) + 1 else 0

/-- Depth of a tree index (spec §4.1): position of the highest set bit. -/
def idxDepth (i : Nat) : Nat := log2Loop i i

/-- Offset of a tree index within its depth (spec §4.1): an index at depth
`d` with offset `k` is `2^d + k`. -/
def idxOff (i : Nat) : Nat := i - 2 ^ idxDepth i

/-- Modelled from the spec (§4.2): `Raw::get` addressed by a §4.1 index. -/
def rawGetIdx (db : DB) (t : Val) (i : Nat) : Except VError (Option Val) :=
  walkGet db t (idxDepth i) (idxOff i)

/-- Modelled from the spec (§4.2): `Raw::set` addressed by a §4.1 index. -/
def rawSetIdx (db : DB) (t : Val) (i : Nat) (v : Val) : Except VError (Val × DB) :=
  rawSetD db t (idxDepth i) (idxOff i) v

/-- The `Vector` struct of `src/vector.rs`: a raw tree (its root value),
the tracked length, and the optional hard cap.  The `Raw` holds only the
root in memory; in this model the root value determines the whole tree
since keys are content addresses. -/
structure VecS : Type where
  tree : Val
  len : Nat
  maxLen : Option Nat
deriving DecidableEq

/-- The `while max_len < len { max_len *= 2 }` loop of
`Vector::current_max_len` (vector.rs:55-59), with explicit fuel so the
recursion is structural (the kernel can then evaluate it).  The loop
starting at `cur = 1` iterates at most `len` times, so a fuel of `len`
never runs out (`doubleLoop_fuel` below). -/
def doubleLoop : Nat → Nat → Nat → Nat
  | 0, _, cur => cur
  | fuel + 1, len, cur => if cur < len then doubleLoop fuel len (2 * cur) else cur

/-- The doubling loop starting from `cur`, fueled with `len`. -/
def doubleWhileLt (len cur : Nat) : Nat := doubleLoop len len cur

/-- `Vector::current_max_len` (vector.rs:52-61): the stored cap if capped,
else the doubling loop from 1. -/
def currentMaxLen (s : VecS) : Nat :=
  s.maxLen.getD (doubleWhileLt s.len 1)

/-- The depth-counting doubling loop of `Vector::depth` (vector.rs:69-77)
and `Vector::create` (vector.rs:245-250), with explicit fuel as in
`doubleLoop`. -/
def depthLoop : Nat → Nat → Nat → Nat
  | 0, _, _ => 0
  | fuel + 1, target, cur => if cur < target then depthLoop fuel target (2 * cur) + 1 else 0

/-- The depth-counting loop starting from `cur`, fueled with `target`. -/
def depthCount (target cur : Nat) : Nat := depthLoop target target cur

/-- `Vector::depth` (vector.rs:68-77). -/
def depth (s : VecS) : Nat := depthCount (currentMaxLen s) 1

/-- `Vector::raw_index` (vector.rs:23-25): `Index::from_depth(i, depth)`,
i.e. `2^depth + i` (spec §4.1). -/
def rawIndex (s : VecS) (i : Nat) : Nat := 2 ^ depth s + i

/-- `Vector::get` (vector.rs:79-91). -/
def Vget (db : DB) (s : VecS) (i : Nat) : Except VError Val :=
  if s.len ≤ i then .error .AccessOverflowed
  else
    match rawGetIdx db s.tree (rawIndex s i) with
    | .error e => .error e
    | .ok none => .error .CorruptedDatabase
    | .ok (some v) => .ok v

/-- `Vector::set` (vector.rs:93-107). -/
def Vset (db : DB) (s : VecS) (i : Nat) (v : Val) :
    Except VError Unit × VecS × DB :=
  if s.len ≤ i then (.error .AccessOverflowed, s, db)
  else
    match rawSetIdx db s.tree (rawIndex s i) v with
    | .error e => (.error e, s, db)
    | .ok (t2, db2) => (.ok (), { s with tree := t2 }, db2)

/-- `Vector::extend` (vector.rs:27-39): build a fresh raw with the old
root at `EXTEND_INDEX = 2` and `empty_at[depth]` at `EMPTY_INDEX = 3`,
release the old raw's root, and adopt the new raw. -/
def Vextend (db : DB) (s : VecS) : Except VError Unit × VecS × DB :=
  match rawSetIdx db (.End zeroBytes) 2 s.tree with
  | .error e => (.error e, s, db)
  | .ok (t1, db1) =>
    match rawSetIdx db1 t1 3 (emptyAt (depth s)) with
    | .error e => (.error e, s, db1)
    | .ok (t2, db2) =>
      match rawSetIdx db2 s.tree 1 (.End zeroBytes) with
      | .error e => (.error e, s, db2)
      | .ok (_, db3) => (.ok (), { s with tree := t2 }, db3)

/-- `Vector::shrink` (vector.rs:41-50): move the value at
`EXTEND_INDEX = 2` (or `End(0×32)` when absent) to the root. -/
def Vshrink (db : DB) (s : VecS) : Except VError Unit × VecS × DB :=
  match rawGetIdx db s.tree 2 with
  | .error e => (.error e, s, db)
  | .ok (some ev) =>
    match rawSetIdx db s.tree 1 ev with
    | .error e => (.error e, s, db)
    | .ok (t2, db2) => (.ok (), { s with tree := t2 }, db2)
  | .ok none =>
    match rawSetIdx db s.tree 1 (.End zeroBytes) with
    | .error e => (.error e, s, db)
    | .ok (t2, db2) => (.ok (), { s with tree := t2 }, db2)

/-- `Vector::push` (vector.rs:110-130).  Note the source assigns
`self.len = len` *before* the fallible leaf write. -/
def Vpush (db : DB) (s : VecS) (v : Val) : Except VError Unit × VecS × DB :=
  let oldLen := s.len
  if oldLen = currentMaxLen s then
    if s.maxLen.isSome then (.error .AccessOverflowed, s, db)
    else
      match Vextend db s with
      | (.error e, s1, db1) => (.error e, s1, db1)
      | (.ok _, s1, db1) =>
        let s2 := { s1 with len := oldLen + 1 }
        match rawSetIdx db1 s2.tree (rawIndex s2 oldLen) v with
        | .error e => (.error e, s2, db1)
        | .ok (t2, db2) => (.ok (), { s2 with tree := t2 }, db2)
  else
    let s2 := { s with len := oldLen + 1 }
    match rawSetIdx db s2.tree (rawIndex s2 oldLen) v with
    | .error e => (.error e, s2, db)
    | .ok (t2, db2) => (.ok (), { s2 with tree := t2 }, db2)

/-- The ascent loop of `Vector::pop` (vector.rs:147-160): starting from a
raw index, ascend while the current node is a left child (`parent.left()
== i`, i.e. `i` even and `i > 1`), returning the index stopped at and the
number of ascended levels. -/
def ascendLoop : Nat → Nat → Nat × Nat
  | 0, i => (i, 0)
  | fuel + 1, i =>
    if 1 < i ∧ i % 2 = 0 then
      let p := ascendLoop fuel (i / 2)
      (p.1, p.2 + 1)
    else (i, 0)

/-- The ascent loop, fueled with `i` (each iteration halves the index, so
a fuel of `i` never runs out). -/
def ascend (i : Nat) : Nat × Nat := ascendLoop i i

/-- `Vector::pop` (vector.rs:133-171).  The shrink condition reads
`current_max_len()` while `self.len` still holds the pre-pop length;
`self.len` is assigned only after a successful shrink stage. -/
def Vpop (db : DB) (s : VecS) : Except VError (Option Val) × VecS × DB :=
  let oldLen := s.len
  if oldLen = 0 then (.ok none, s, db)
  else
    let len := oldLen - 1
    let ri := rawIndex s len
    match rawGetIdx db s.tree ri with
    | .error e => (.error e, s, db)
    | .ok none => (.error .CorruptedDatabase, s, db)
    | .ok (some value) =>
      let a := ascend ri
      match rawSetIdx db s.tree a.1 (emptyAt a.2) with
      | .error e => (.error e, s, db)
      | .ok (t2, db2) =>
        let s2 := { s with tree := t2 }
        if len ≤ currentMaxLen s / 2 ∧ s.maxLen = none then
          match Vshrink db2 s2 with
          | (.error e, s3, db3) => (.error e, s3, db3)
          | (.ok _, s3, db3) => (.ok (some value), { s3 with len := len }, db3)
        else (.ok (some value), { s2 with len := len }, db2)

/-- `Vector::create` (vector.rs:229-261).  The guard is transcribed as
written in the source: `if (len as u64) < max_len || max_len == 0`. -/
def Vcreate (db : DB) (len : Nat) (maxLen : Option Nat) :
    Except VError VecS × DB :=
  match maxLen with
  | some m =>
    if len < m ∨ m = 0 then (.error .InvalidParameter, db)
    else
      let d := depthCount m 1
      match rawSetIdx db (.End zeroBytes) 1 (emptyAt d) with
      | .error e => (.error e, db)
      | .ok (t, db2) => (.ok ⟨t, len, maxLen⟩, db2)
  | none =>
    let d := depthCount len 1
    match rawSetIdx db (.End zeroBytes) 1 (emptyAt d) with
    | .error e => (.error e, db)
    | .ok (t, db2) => (.ok ⟨t, len, maxLen⟩, db2)

/-! ## SSZ packed vector codec (`le/src/elemental_fixed.rs`) -/

/-- `2^d` leaves addressed by offset, folded into a perfect binary tree of
depth `d`: the conceptual tree of spec §3 invariant (3). -/
def mkTreeF : Nat → (Nat → Val) → Val
  | 0, f => f 0
  | d + 1, f => .Intermediate (mkTreeF d f) (mkTreeF d fun i => f (2 ^ d + i))

/-- Little-endian byte serialization of `x` to exactly `w` bytes
(`to_le_bytes` in the source). -/
def toLEBytes : Nat → Nat → List Nat
  | 0, _ => []
  | w + 1, x => x % 256 :: toLEBytes w (x / 256)

/-- Little-endian deserialization (`from_le_bytes` in the source). -/
def fromLEBytes : List Nat → Nat
  | [] => 0
  | b :: bs => b % 256 + 256 * fromLEBytes bs

/-- The chunking loop of `into_vector_tree` (elemental_fixed.rs:83-92):
start a fresh chunk whenever the last one holds 32 bytes (or none exists),
then append the element's `w` little-endian bytes to the last chunk. -/
def packChunks (w : Nat) (vals : List Nat) : List (List Nat) :=
  vals.foldl
    (fun chunks x =>
      let cs := if (chunks.getLast?.map fun c => c.length == 32).getD true
        then chunks ++ [[]] else chunks
      cs.dropLast ++ [cs.getLast?.getD [] ++ toLEBytes w x])
    []

/-- The padding step of `into_vector_tree` (elemental_fixed.rs:94-98):
right-pad the final chunk to 32 bytes with zeros (only when a chunk
exists). -/
def padLast (chunks : List (List Nat)) : List (List Nat) :=
  match chunks.getLast? with
  | none => chunks
  | some last => chunks.dropLast ++ [last ++ List.replicate (32 - last.length) 0]

/-- Modelled from the spec (§4.6): `bm::utils::host_len::<U32, L>(max)`,
the chunk-count bound `⌈max·s/32⌉` for element byte width `s`. -/
def hostLen (w max : Nat) : Nat := (max * w + 31) / 32

/-- Modelled from the spec (§4.6): `bm::utils::vector_tree` — the Merkle
root of the chunk sequence over a perfect binary tree of depth
`⌈log2 max(C, M_chunks)⌉` (with the dynamic `max(1, C)` rule when no bound
is given), missing leaves being zero chunks; the built tree's nodes are
retained in the backend. -/
def vectorTree (leaves : List Val) (db : DB) (maxLen : Option Nat) : Val × DB :=
  let c := leaves.length
  let target := match maxLen with
    | some m => max c m
    | none => c
  let d := depthCount target 1
  let root := mkTreeF d fun i => leaves.getD i (.End zeroBytes)
  (root, insertV root db)

/-- `into_vector_tree` for a packed integer element type of byte width `w`
(elemental_fixed.rs:78-105): chunk the little-endian bytes, pad, and build
the vector tree with chunk bound `host_len::<U32, L>(max_len)`. -/
def intoVectorTreeUint (w : Nat) (vals : List Nat) (db : DB)
    (maxLen : Option Nat) : Val × DB :=
  let chunks := padLast (packChunks w vals)
  vectorTree (chunks.map fun c => Val.End c) db (maxLen.map fun m => hostLen w m)

/-- Modelled from the spec (§4.6 decode): `PackedVector::get` for element
byte width `w`: the packed vector adopted from
`(root, len, max_len)` reads chunk `⌊i·w/32⌋` of the underlying chunk
vector (whose length and bound are the `host_len` images) and extracts the
element's `w` bytes; a non-`End` chunk value is a width mismatch,
surfaced as `CorruptedDatabase` (spec §7). -/
def packedGet (db : DB) (root : Val) (lenE : Nat) (maxE : Option Nat)
    (w i : Nat) : Except VError (List Nat) :=
  if lenE ≤ i then .error .AccessOverflowed
  else
    let s : VecS := ⟨root, hostLen w lenE, maxE.map (hostLen w)⟩
    match Vget db s (i * w / 32) with
    | .error e => .error e
    | .ok (.End b) => .ok ((b.drop (i * w % 32)).take w)
    | .ok (.Intermediate _ _) => .error .CorruptedDatabase

/-- `from_vector_tree` for a packed integer element type of byte width `w`
(elemental_fixed.rs:112-131): read each element through the adopted packed
vector and deserialize little-endian. -/
def fromVectorTreeUint (w : Nat) (root : Val) (db : DB) (len : Nat)
    (maxLen : Option Nat) : Except VError (List Nat) :=
  (List.range len).mapM fun i =>
    match packedGet db root len maxLen w i with
    | .error e => .error e
    | .ok bs => .ok (fromLEBytes bs)

/-- The bit-packing loop of the `bool` `into_vector_tree`
(elemental_fixed.rs:190-195): `⌈len/8⌉` zero bytes, then
`bytes[i / 8] |= (v[i] as u8) << (i % 8)` for each index. -/
def boolPackBytes (v : List Bool) : List Nat :=
  (List.range v.length).foldl
    (fun bs i =>
      bs.set (i / 8) (bs.getD (i / 8) 0 ||| (if v.getD i false then 1 else 0) <<< (i % 8)))
    (List.replicate ((v.length + 7) / 8) 0)

/-- `into_vector_tree` for `bool` (elemental_fixed.rs:185-198): bit-pack,
then proceed as the `u8` case — passing the *bool-count* `max_len` through
unchanged, exactly as the source does. -/
def intoVectorTreeBool (v : List Bool) (db : DB) (maxLen : Option Nat) : Val × DB :=
  intoVectorTreeUint 1 (boolPackBytes v) db maxLen

/-- `from_vector_tree` for `bool` (elemental_fixed.rs:205-226): adopt a
packed `u8` vector of `⌈len/8⌉` bytes with bound `⌈max_len/8⌉` bytes, read
all bytes, and unpack bit-wise (`bytes[i/8] & (1 << (i%8)) != 0`). -/
def fromVectorTreeBool (root : Val) (db : DB) (len : Nat)
    (maxLen : Option Nat) : Except VError (List Bool) :=
  let lenB := (len + 7) / 8
  let maxB := maxLen.map fun l => (l + 7) / 8
  match (List.range lenB).mapM (fun i => packedGet db root lenB maxB 1 i) with
  | .error e => .error e
  | .ok byteVals =>
    let bytes := byteVals.map fun bs => bs.getD 0 0
    .ok ((List.range len).map fun i =>
      decide (bytes.getD (i / 8) 0 &&& 1 <<< (i % 8) ≠ 0))

/-! ## Backend store well-formedness

A store is well-formed with respect to a multiset `R` of externally held
root values when every key's refcount is exactly the number of references
to it: one per external root with that key, plus one per child slot of a
stored node holding that key (spec §3 invariant (4), §6).  A well-formed
store is uniquely determined by `R` (`wfDB_unique` below), which is what
makes refcount-conservation arguments compositional. -/

/-- The backend key of a value: an `End` has none, an `Intermediate` is
keyed by its `(left, right)` children. -/
def nodeKey : Val → Option (Val × Val)
  | .End _ => none
  | .Intermediate l r => some (l, r)

/-- References to key `k` from externally held roots. -/
def rootRefs (R : Multiset Val) (k : Val × Val) : Nat :=
  R.countP fun v => nodeKey v = some k

/-- References to key `k` from the two child slots of a stored node `p`. -/
def slots (p k : Val × Val) : Nat :=
  (if nodeKey p.1 = some k then 1 else 0) + (if nodeKey p.2 = some k then 1 else 0)

/-- References to key `k` from the child slots of all distinct stored
nodes (each node's record exists once, however large its refcount). -/
def parentRefs (db : DB) (k : Val × Val) : Nat :=
  Finset.sum db.toFinset fun p => slots p k

/-- Store well-formedness: every refcount is exactly the reference count. -/
def wfDB (db : DB) (R : Multiset Val) : Prop :=
  ∀ k, db.count k = rootRefs R k + parentRefs db k

/-- Size measure on values, used to orient key-dependency induction
(a stored node is strictly larger than the keys in its child slots). -/
def vsize : Val → Nat
  | .End _ => 1
  | .Intermediate l r => vsize l + vsize r + 1

/-- Size measure on keys. -/
def keySize (k : Val × Val) : Nat := vsize k.1 + vsize k.2

/-- A value usable as a tree root against a store: an `End`, or an
`Intermediate` whose key is present. -/
def rootedIn (t : Val) (db : DB) : Prop :=
  match nodeKey t with
  | none => True
  | some k => 0 < db.count k

/-- Leaf function padded with zero leaves from position `n` on: the
conceptual leaf content of a vector of length `n` (spec §3 invariant
(2)). -/
def zeroPad (f : Nat → Val) (n : Nat) : Nat → Val :=
  fun i => if i < n then f i else .End zeroBytes

/-- Pointwise update of a leaf function. -/
def updF (f : Nat → Val) (n : Nat) (v : Val) : Nat → Val :=
  fun i => if i = n then v else f i

/-- The purely structural effect of `Vector::shrink` (vector.rs:45-48):
the value at `EXTEND_INDEX` (depth 1, offset 0) if reachable, else
`End(0×32)`. -/
def shrinkTreeOf (t : Val) : Val :=
  match getP t 1 0 with
  | some v => v
  | none => .End zeroBytes

/-- The tree written by `pop`'s zero-coalescing step (vector.rs:147-162):
`empty_at[k]` overwrites the index reached by `ascend` from the popped
leaf's raw index. -/
def coalescedTree (s : VecS) : Val :=
  let ri := rawIndex s (s.len - 1)
  setPure s.tree (idxDepth (ascend ri).1) (idxOff (ascend ri).1) (emptyAt (ascend ri).2)

/-! ## Concrete scenario states (spec §8, S4/S5) -/

/-- Scenario leaf `a`: a distinct `End` payload. -/
def leafA : Val := .End [1]

/-- Scenario leaf `b`. -/
def leafB : Val := .End [2]

/-- Scenario leaf `c`. -/
def leafC : Val := .End [3]

/-- The vector/store pair after a push, whatever the result (the engine
mutates in place; the result is checked separately). -/
def pushedState (x : VecS × DB) (v : Val) : VecS × DB :=
  ((Vpush x.2 x.1 v).2.1, (Vpush x.2 x.1 v).2.2)

/-- The vector/store pair after a pop. -/
def poppedState (x : VecS × DB) : VecS × DB :=
  ((Vpop x.2 x.1).2.1, (Vpop x.2 x.1).2.2)

/-- S4: the freshly created dynamic vector (`create(len=0, max_len=None)`
over an empty store). -/
def s4Start : VecS × DB := (⟨.End zeroBytes, 0, none⟩, 0)

/-- S4: the state after pushing `a`, `b`, `c`. -/
def s4After3 : VecS × DB := pushedState (pushedState (pushedState s4Start leafA) leafB) leafC

/-- S5: the state after the first pop. -/
def s5After1 : VecS × DB := poppedState s4After3

/-! ## Loop characterizations -/

theorem doubleLoop_ge (fuel : Nat) : ∀ len cur : Nat, 0 < cur → len ≤ cur + fuel →
    len ≤ doubleLoop fuel len cur := by
  induction fuel with
  | zero => intro len cur _ hf; simpa [doubleLoop] using hf
  | succ n ih =>
    intro len cur hc hf
    by_cases h : cur < len
    · simp only [doubleLoop, if_pos h]
      exact ih len (2 * cur) (by omega) (by omega)
    · simp only [doubleLoop, if_neg h]; omega

theorem doubleLoop_pow (fuel : Nat) : ∀ len cur : Nat,
    ∃ k, doubleLoop fuel len cur = cur * 2 ^ k := by
  induction fuel with
  | zero => intro len cur; exact ⟨0, by simp [doubleLoop]⟩
  | succ n ih =>
    intro len cur
    by_cases h : cur < len
    · obtain ⟨k, hk⟩ := ih len (2 * cur)
      exact ⟨k + 1, by simp only [doubleLoop, if_pos h, hk]; ring⟩
    · exact ⟨0, by simp [doubleLoop, if_neg h]⟩

theorem doubleLoop_le (fuel : Nat) : ∀ len cur m : Nat, cur ≤ m → len ≤ m →
    (∃ j, m = cur * 2 ^ j) → doubleLoop fuel len cur ≤ m := by
  induction fuel with
  | zero => intro len cur m hc _ _; simpa [doubleLoop] using hc
  | succ n ih =>
    intro len cur m hc hl hm
    by_cases h : cur < len
    · simp only [doubleLoop, if_pos h]
      obtain ⟨j, hj⟩ := hm
      match j, hj with
      | 0, hj => omega
      | j + 1, hj =>
        refine ih len (2 * cur) m ?_ hl ⟨j, by rw [hj]; ring⟩
        have h1 : 1 ≤ 2 ^ j := Nat.one_le_two_pow
        calc 2 * cur ≤ 2 * cur * 2 ^ j := by nlinarith
        _ = m := by rw [hj]; ring
    · simp only [doubleLoop, if_neg h]; omega

theorem depthLoop_pow (fuel : Nat) : ∀ len cur : Nat,
    cur * 2 ^ depthLoop fuel len cur = doubleLoop fuel len cur := by
  induction fuel with
  | zero => intro len cur; simp [depthLoop, doubleLoop]
  | succ n ih =>
    intro len cur
    by_cases h : cur < len
    · simp only [depthLoop, doubleLoop, if_pos h]
      have := ih len (2 * cur)
      rw [← this]; ring
    · simp only [depthLoop, doubleLoop, if_neg h]; simp

/-- The dynamic `current_max_len` is at least `len`. -/
theorem dW_ge (len : Nat) : len ≤ doubleWhileLt len 1 :=
  doubleLoop_ge len len 1 Nat.one_pos (by omega)

/-- The dynamic `current_max_len` is a power of two. -/
theorem dW_pow (len : Nat) : ∃ k, doubleWhileLt len 1 = 2 ^ k := by
  obtain ⟨k, hk⟩ := doubleLoop_pow len len 1
  exact ⟨k, by simpa using hk⟩

/-- The dynamic `current_max_len` is the least power of two above `len`. -/
theorem dW_le_pow (len j : Nat) (h : len ≤ 2 ^ j) : doubleWhileLt len 1 ≤ 2 ^ j :=
  doubleLoop_le len len 1 (2 ^ j) Nat.one_le_two_pow h ⟨j, by simp⟩

/-- `depth` and `current_max_len` agree: `2^depth = current_max_len` in
dynamic mode. -/
theorem pow_depthCount (len : Nat) : 2 ^ depthCount len 1 = doubleWhileLt len 1 := by
  simpa using depthLoop_pow len len 1

theorem dW_pos (len : Nat) : 0 < doubleWhileLt len 1 := by
  obtain ⟨k, hk⟩ := dW_pow len
  rw [hk]; exact Nat.pos_pow_of_pos k (by omega)

/-- Fixpoint: the doubling loop on a power of two returns it. -/
theorem dW_pow_self (k : Nat) : doubleWhileLt (2 ^ k) 1 = 2 ^ k :=
  Nat.le_antisymm (dW_le_pow (2 ^ k) k le_rfl) (dW_ge (2 ^ k))

theorem depthCount_pow_self (k : Nat) : depthCount (2 ^ k) 1 = k := by
  have h := pow_depthCount (2 ^ k)
  rw [dW_pow_self] at h
  exact Nat.pow_right_injective (by omega) h

/-- Minimality in halved form: if the result of the doubling loop is
`2^(K+1)`, then `2^K < len`. -/
theorem dW_half_lt (len K : Nat) (h : doubleWhileLt len 1 = 2 ^ (K + 1)) :
    2 ^ K < len := by
  by_contra hc
  have := dW_le_pow len K (by omega)
  have h2 : (2:Nat) ^ K < 2 ^ (K + 1) := Nat.pow_lt_pow_succ (by omega)
  omega

theorem log2Loop_spec (fuel : Nat) : ∀ n : Nat, 0 < n → n ≤ fuel →
    2 ^ log2Loop fuel n ≤ n ∧ n < 2 ^ (log2Loop fuel n + 1) := by
  induction fuel with
  | zero => intro n h1 h2; omega
  | succ m ih =>
    intro n h1 h2
    by_cases h : 2 ≤ n
    · have hdiv : n / 2 < n := Nat.div_lt_self h1 Nat.one_lt_two
      have hmod := Nat.div_add_mod n 2
      obtain ⟨hl, hr⟩ := ih (n / 2) (by omega) (by omega)
      simp only [log2Loop, if_pos h]
      constructor
      · calc 2 ^ (log2Loop m (n / 2) + 1) = 2 * 2 ^ log2Loop m (n / 2) := by ring
        _ ≤ 2 * (n / 2) := by omega
        _ ≤ n := by omega
      · calc n = 2 * (n / 2) + n % 2 := by omega
        _ < 2 * 2 ^ (log2Loop m (n / 2) + 1) := by omega
        _ = 2 ^ (log2Loop m (n / 2) + 1 + 1) := by ring
    · have : n = 1 := by omega
      subst this
      simp [log2Loop]

theorem idxDepth_spec (i : Nat) (h : 0 < i) :
    2 ^ idxDepth i ≤ i ∧ i < 2 ^ (idxDepth i + 1) :=
  log2Loop_spec i i h le_rfl

/-- `from_depth` round-trip, depth part: `depth(2^d + off) = d` for
`off < 2^d`. -/
theorem idxDepth_from_depth (d off : Nat) (h : off < 2 ^ d) :
    idxDepth (2 ^ d + off) = d := by
  have hpos : 0 < 2 ^ d + off := by positivity
  obtain ⟨hl, hr⟩ := idxDepth_spec (2 ^ d + off) hpos
  set L := idxDepth (2 ^ d + off) with hL
  rcases Nat.lt_trichotomy L d with hlt | heq | hgt
  · have : 2 ^ (L + 1) ≤ 2 ^ d := Nat.pow_le_pow_right (by omega) (by omega)
    omega
  · exact heq
  · have h1 : 2 ^ (d + 1) ≤ 2 ^ L := Nat.pow_le_pow_right (by omega) (by omega)
    have h2 : 2 ^ (d + 1) = 2 * 2 ^ d := by ring
    omega

/-- `from_depth` round-trip, offset part. -/
theorem idxOff_from_depth (d off : Nat) (h : off < 2 ^ d) :
    idxOff (2 ^ d + off) = off := by
  unfold idxOff
  rw [idxDepth_from_depth d off h]
  omega

theorem ascendLoop_spec (fuel : Nat) : ∀ i : Nat, 0 < i → i ≤ fuel →
    (ascendLoop fuel i).1 * 2 ^ (ascendLoop fuel i).2 = i ∧
    ((ascendLoop fuel i).1 = 1 ∨ (ascendLoop fuel i).1 % 2 = 1) ∧
    (∀ m, m < (ascendLoop fuel i).2 → 1 < i / 2 ^ m ∧ (i / 2 ^ m) % 2 = 0) := by
  induction fuel with
  | zero => intro i h1 h2; omega
  | succ n ih =>
    intro i h1 h2
    by_cases h : 1 < i ∧ i % 2 = 0
    · have hdiv : i / 2 < i := Nat.div_lt_self h1 Nat.one_lt_two
      have hmod := Nat.div_add_mod i 2
      obtain ⟨ha, hb, hc⟩ := ih (i / 2) (by omega) (by omega)
      simp only [ascendLoop, if_pos h]
      refine ⟨?_, hb, ?_⟩
      · calc (ascendLoop n (i / 2)).1 * 2 ^ ((ascendLoop n (i / 2)).2 + 1)
            = (ascendLoop n (i / 2)).1 * 2 ^ (ascendLoop n (i / 2)).2 * 2 := by ring
        _ = i / 2 * 2 := by rw [ha]
        _ = i := by omega
      · intro m hm
        match m with
        | 0 => simpa using h
        | m + 1 =>
          have heq : i / 2 ^ (m + 1) = i / 2 / 2 ^ m := by
            rw [Nat.div_div_eq_div_mul, pow_succ, Nat.mul_comm]
          rw [heq]
          exact hc m (by omega)
    · simp only [ascendLoop, if_neg h]
      refine ⟨by simp, by omega, by omega⟩

theorem ascend_spec (i : Nat) (h : 0 < i) :
    (ascend i).1 * 2 ^ (ascend i).2 = i ∧
    ((ascend i).1 = 1 ∨ (ascend i).1 % 2 = 1) ∧
    (∀ m, m < (ascend i).2 → 1 < i / 2 ^ m ∧ (i / 2 ^ m) % 2 = 0) :=
  ascendLoop_spec i i h le_rfl

/-! ## Store well-formedness: insertion, release, uniqueness -/

theorem vsize_pos (v : Val) : 0 < vsize v := by
  cases v <;> simp [vsize]

theorem rootRefs_cons (v : Val) (R : Multiset Val) (k : Val × Val) :
    rootRefs (v ::ₘ R) k = rootRefs R k + (if nodeKey v = some k then 1 else 0) := by
  simp [rootRefs, Multiset.countP_cons]

theorem rootRefs_cons_end (b : Bytes) (R : Multiset Val) (k : Val × Val) :
    rootRefs (Val.End b ::ₘ R) k = rootRefs R k := by
  simp [rootRefs_cons, nodeKey]

theorem wfDB_cons_end (b : Bytes) (db : DB) (R : Multiset Val) :
    wfDB db (Val.End b ::ₘ R) ↔ wfDB db R := by
  constructor
  · intro h k
    have hk := h k
    rwa [rootRefs_cons_end] at hk
  · intro h k
    rw [rootRefs_cons_end]
    exact h k

/-- A stored node is strictly larger than any key in its child slots. -/
theorem keySize_lt_of_slots (p k : Val × Val) (h : slots p k ≠ 0) :
    keySize k < keySize p := by
  have : nodeKey p.1 = some k ∨ nodeKey p.2 = some k := by
    by_contra hc
    push_neg at hc
    simp [slots, hc.1, hc.2] at h
  have h1 := vsize_pos p.1
  have h2 := vsize_pos p.2
  rcases this with h' | h'
  · cases hp : p.1 with
    | End b => rw [hp] at h'; simp [nodeKey] at h'
    | Intermediate a b =>
      rw [hp] at h'
      simp only [nodeKey, Option.some.injEq] at h'
      subst h'
      simp only [keySize, hp, vsize]
      omega
  · cases hp : p.2 with
    | End b => rw [hp] at h'; simp [nodeKey] at h'
    | Intermediate a b =>
      rw [hp] at h'
      simp only [nodeKey, Option.some.injEq] at h'
      subst h'
      simp only [keySize, hp, vsize]
      omega

/-- `insertV u` only touches keys strictly smaller than `u`. -/
theorem insertV_count_big (u : Val) : ∀ (db : DB) (k : Val × Val),
    vsize u ≤ keySize k → (insertV u db).count k = db.count k := by
  induction u with
  | End b => intro db k _; simp [insertV]
  | Intermediate l r ihl ihr =>
    intro db k hk
    have hvl := vsize_pos l
    have hvr := vsize_pos r
    have hne : k ≠ (l, r) := by
      intro he
      subst he
      simp only [keySize, vsize] at hk
      omega
    by_cases hp : 0 < db.count (l, r)
    · simp only [insertV, if_pos hp, Multiset.count_cons, if_neg hne]
      omega
    · simp only [insertV, if_neg hp, Multiset.count_cons, if_neg hne]
      rw [ihr _ _ (by simp only [vsize] at hk; omega),
        ihl _ _ (by simp only [vsize] at hk; omega)]
      omega

theorem parentRefs_cons_mem (a : Val × Val) (db : DB) (k : Val × Val)
    (h : a ∈ db.toFinset) : parentRefs (a ::ₘ db) k = parentRefs db k := by
  simp only [parentRefs, Multiset.toFinset_cons, Finset.insert_eq_self.mpr h]

theorem parentRefs_cons_new (a : Val × Val) (db : DB) (k : Val × Val)
    (h : a ∉ db.toFinset) :
    parentRefs (a ::ₘ db) k = slots a k + parentRefs db k := by
  simp only [parentRefs, Multiset.toFinset_cons, Finset.sum_insert h]

/-- Retaining a root reference preserves store well-formedness, with the
value added to the external roots. -/
theorem wfDB_insertV (v : Val) : ∀ (db : DB) (R : Multiset Val),
    wfDB db R → wfDB (insertV v db) (v ::ₘ R) := by
  induction v with
  | End b =>
    intro db R h k
    simp only [insertV, rootRefs_cons_end]
    exact h k
  | Intermediate l r ihl ihr =>
    intro db R h
    by_cases hp : 0 < db.count (l, r)
    · have htf : (l, r) ∈ db.toFinset :=
        Multiset.mem_toFinset.mpr (Multiset.count_pos.mp hp)
      intro k
      have hk := h k
      simp only [insertV, if_pos hp, Multiset.count_cons, rootRefs_cons, nodeKey,
        parentRefs_cons_mem _ _ _ htf]
      by_cases hkk : k = (l, r)
      · subst hkk; simp; omega
      · rw [if_neg hkk, if_neg (by simpa [eq_comm] using hkk)]
        omega
    · have h1 := ihl db R h
      have h2 := ihr _ _ h1
      have hcnt : (insertV r (insertV l db)).count (l, r) = 0 := by
        rw [insertV_count_big r _ _ (by simp only [keySize]; have := vsize_pos l; omega),
          insertV_count_big l _ _ (by simp only [keySize]; have := vsize_pos r; omega)]
        omega
      have hnm : (l, r) ∉ (insertV r (insertV l db)).toFinset := by
        rw [Multiset.mem_toFinset]
        intro hm
        have := Multiset.count_pos.mpr hm
        omega
      intro k
      have hk2 := h2 k
      simp only [insertV, if_neg hp, Multiset.count_cons,
        parentRefs_cons_new _ _ _ hnm, rootRefs_cons, nodeKey, slots] at *
      by_cases hkk : k = (l, r)
      · subst hkk; simp at *; omega
      · rw [if_neg hkk, if_neg (by simpa [eq_comm] using hkk)]
        omega

theorem toFinset_erase_of_one_lt (db : DB) (a : Val × Val)
    (h : 1 < db.count a) : (db.erase a).toFinset = db.toFinset := by
  ext x
  rw [Multiset.mem_toFinset, Multiset.mem_toFinset, ← Multiset.count_pos,
    ← Multiset.count_pos]
  by_cases hx : x = a
  · subst hx
    rw [Multiset.count_erase_self]
    omega
  · rw [Multiset.count_erase_of_ne hx]

theorem toFinset_erase_of_eq_one (db : DB) (a : Val × Val)
    (h : db.count a = 1) : (db.erase a).toFinset = db.toFinset.erase a := by
  ext x
  rw [Finset.mem_erase, Multiset.mem_toFinset, Multiset.mem_toFinset,
    ← Multiset.count_pos, ← Multiset.count_pos]
  by_cases hx : x = a
  · subst hx
    rw [Multiset.count_erase_self]
    constructor
    · intro hc
      omega
    · rintro ⟨hne, _⟩
      exact absurd rfl hne
  · rw [Multiset.count_erase_of_ne hx]
    constructor
    · intro hc
      exact ⟨hx, hc⟩
    · rintro ⟨_, hc⟩
      exact hc

/-- Releasing a root reference preserves store well-formedness, with the
value removed from the external roots. -/
theorem wfDB_decrefV (v : Val) : ∀ (db : DB) (R : Multiset Val),
    wfDB db (v ::ₘ R) → wfDB (decrefV v db) R := by
  induction v with
  | End b =>
    intro db R h k
    have hk := h k
    rw [rootRefs_cons_end] at hk
    simpa [decrefV] using hk
  | Intermediate l r ihl ihr =>
    intro db R h
    have hroot : 0 < rootRefs (Val.Intermediate l r ::ₘ R) (l, r) := by
      rw [rootRefs_cons]
      simp [nodeKey]
    have hcnt : 0 < db.count (l, r) := by
      have := h (l, r)
      omega
    have htf : (l, r) ∈ db.toFinset :=
      Multiset.mem_toFinset.mpr (Multiset.count_pos.mp hcnt)
    by_cases hgt : 1 < db.count (l, r)
    · simp only [decrefV, if_pos hgt]
      intro k
      have hk := h k
      rw [rootRefs_cons] at hk
      have hpr : parentRefs (db.erase (l, r)) k = parentRefs db k := by
        simp only [parentRefs, toFinset_erase_of_one_lt db _ hgt]
      rw [hpr]
      by_cases hkk : k = (l, r)
      · subst hkk
        rw [Multiset.count_erase_self]
        simp only [nodeKey, eq_self_iff_true, if_true] at hk
        omega
      · rw [Multiset.count_erase_of_ne hkk]
        simp only [nodeKey] at hk
        rw [if_neg (by simpa [eq_comm] using hkk)] at hk
        omega
    · have hone : db.count (l, r) = 1 := by omega
      simp only [decrefV, if_neg hgt, if_pos hone]
      have hstep : wfDB (db.erase (l, r)) (r ::ₘ l ::ₘ R) := by
        intro k
        have hk := h k
        rw [rootRefs_cons] at hk
        have hsum : parentRefs (db.erase (l, r)) k + slots (l, r) k = parentRefs db k := by
          simp only [parentRefs, toFinset_erase_of_eq_one db _ hone]
          exact Finset.sum_erase_add _ _ htf
        have hrr : rootRefs (r ::ₘ l ::ₘ R) k = rootRefs R k + slots (l, r) k := by
          rw [rootRefs_cons, rootRefs_cons]
          simp only [slots]
          omega
        rw [hrr]
        by_cases hkk : k = (l, r)
        · subst hkk
          rw [Multiset.count_erase_self]
          simp only [nodeKey, eq_self_iff_true, if_true] at hk
          omega
        · rw [Multiset.count_erase_of_ne hkk]
          simp only [nodeKey] at hk
          rw [if_neg (by simpa [eq_comm] using hkk)] at hk
          omega
      exact ihl _ _ (ihr _ _ hstep)

theorem parentRefs_ge_slots (db : DB) (k p : Val × Val) (hp : p ∈ db.toFinset) :
    slots p k ≤ parentRefs db k := by
  unfold parentRefs
  exact @Finset.single_le_sum _ _ _ (fun q => slots q k) db.toFinset
    (fun i _ => Nat.zero_le _) p hp

/-- In a well-formed store, an externally rooted intermediate is
present. -/
theorem wf_root_present (db : DB) (R : Multiset Val) (l r : Val)
    (h : wfDB db R) (hm : Val.Intermediate l r ∈ R) : 0 < db.count (l, r) := by
  have hpos : 0 < rootRefs R (l, r) :=
    Multiset.countP_pos.mpr ⟨Val.Intermediate l r, hm, by simp [nodeKey]⟩
  have := h (l, r)
  omega

/-- In a well-formed store, the intermediate children of a present node
are present. -/
theorem wf_child_present (db : DB) (R : Multiset Val) (l r a b : Val)
    (h : wfDB db R) (hp : 0 < db.count (l, r))
    (hc : l = Val.Intermediate a b ∨ r = Val.Intermediate a b) :
    0 < db.count (a, b) := by
  have htf : (l, r) ∈ db.toFinset :=
    Multiset.mem_toFinset.mpr (Multiset.count_pos.mp hp)
  have hslots : 1 ≤ slots (l, r) (a, b) := by
    rcases hc with hc | hc <;> subst hc <;> simp [slots, nodeKey]
  have h1 := parentRefs_ge_slots db (a, b) (l, r) htf
  have := h (a, b)
  omega

/-- A well-formed store is uniquely determined by its external roots. -/
theorem wfDB_unique (db db' : DB) (R : Multiset Val)
    (h : wfDB db R) (h' : wfDB db' R) : db = db' := by
  have key : ∀ n k, (db.toFinset ∪ db'.toFinset).sup keySize + 1 ≤ keySize k + n →
      db.count k = db'.count k := by
    intro n
    induction n with
    | zero =>
      intro k hk
      have hnot : ∀ (d : DB), d.toFinset ⊆ db.toFinset ∪ db'.toFinset → k ∉ d.toFinset := by
        intro d hsub hmem
        have := Finset.le_sup (f := keySize) (hsub hmem)
        omega
      have h1 : db.count k = 0 := by
        by_contra hc
        exact hnot db Finset.subset_union_left
          (Multiset.mem_toFinset.mpr (Multiset.count_pos.mp (by omega)))
      have h2 : db'.count k = 0 := by
        by_contra hc
        exact hnot db' Finset.subset_union_right
          (Multiset.mem_toFinset.mpr (Multiset.count_pos.mp (by omega)))
      omega
    | succ n ih =>
      intro k hk
      have hpr : parentRefs db k = parentRefs db' k := by
        have hfilter : ∀ (d : DB),
            parentRefs d k = Finset.sum (d.toFinset.filter fun p => slots p k ≠ 0)
              (fun p => slots p k) := by
          intro d
          rw [parentRefs, Finset.sum_filter_ne_zero]
        rw [hfilter db, hfilter db']
        congr 1
        ext p
        simp only [Finset.mem_filter, Multiset.mem_toFinset, ← Multiset.count_pos]
        constructor
        · rintro ⟨hmem, hs⟩
          have hlt := keySize_lt_of_slots p k hs
          have := ih p (by omega)
          exact ⟨by omega, hs⟩
        · rintro ⟨hmem, hs⟩
          have hlt := keySize_lt_of_slots p k hs
          have := ih p (by omega)
          exact ⟨by omega, hs⟩
      have h1 := h k
      have h2 := h' k
      omega
  ext k
  exact key ((db.toFinset ∪ db'.toFinset).sup keySize + 1) k (by omega)

/-! ## Walks over well-formed stores, and perfect-tree structure -/

theorem rootedIn_end (b : Bytes) (db : DB) : rootedIn (.End b) db := by
  simp [rootedIn, nodeKey]

theorem rootedIn_of_wf_mem (db : DB) (R : Multiset Val) (t : Val)
    (h : wfDB db R) (hm : t ∈ R) : rootedIn t db := by
  cases t with
  | End b => exact rootedIn_end _ _
  | Intermediate l r =>
    simpa [rootedIn, nodeKey] using wf_root_present db R l r h hm

theorem rootedIn_child_left (db : DB) (R : Multiset Val) (l r : Val)
    (hwf : wfDB db R) (hp : 0 < db.count (l, r)) : rootedIn l db := by
  cases l with
  | End b => exact rootedIn_end _ _
  | Intermediate a b =>
    simpa [rootedIn, nodeKey] using
      wf_child_present db R _ r a b hwf hp (Or.inl rfl)

theorem rootedIn_child_right (db : DB) (R : Multiset Val) (l r : Val)
    (hwf : wfDB db R) (hp : 0 < db.count (l, r)) : rootedIn r db := by
  cases r with
  | End b => exact rootedIn_end _ _
  | Intermediate a b =>
    simpa [rootedIn, nodeKey] using
      wf_child_present db R l _ a b hwf hp (Or.inr rfl)

/-- Against a well-formed store, `Raw::get` from a rooted value never hits
a missing node: it agrees with the pure walk. -/
theorem walkGet_eq_getP (db : DB) (R : Multiset Val) (hwf : wfDB db R) :
    ∀ (d : Nat) (t : Val) (off : Nat), rootedIn t db →
      walkGet db t d off = .ok (getP t d off) := by
  intro d
  induction d with
  | zero => intro t off _; simp [walkGet, getP]
  | succ n ih =>
    intro t off ht
    cases t with
    | End b => simp [walkGet, getP]
    | Intermediate l r =>
      have hp : 0 < db.count (l, r) := by simpa [rootedIn, nodeKey] using ht
      simp only [walkGet, getP, if_pos hp]
      by_cases hoff : off < 2 ^ n
      · rw [if_pos hoff, if_pos hoff]
        exact ih l off (rootedIn_child_left db R l r hwf hp)
      · rw [if_neg hoff, if_neg hoff]
        exact ih r (off - 2 ^ n) (rootedIn_child_right db R l r hwf hp)

/-- Against a well-formed store, the read phase of `Raw::set` from a
rooted value succeeds. -/
theorem walkChk_ok (db : DB) (R : Multiset Val) (hwf : wfDB db R) :
    ∀ (d : Nat) (t : Val) (off : Nat), rootedIn t db →
      walkChk db t d off = .ok () := by
  intro d
  induction d with
  | zero => intro t off _; simp [walkChk]
  | succ n ih =>
    intro t off ht
    cases t with
    | End b => simp [walkChk]
    | Intermediate l r =>
      have hp : 0 < db.count (l, r) := by simpa [rootedIn, nodeKey] using ht
      simp only [walkChk, if_pos hp]
      by_cases hoff : off < 2 ^ n
      · rw [if_pos hoff]
        exact ih l off (rootedIn_child_left db R l r hwf hp)
      · rw [if_neg hoff]
        exact ih r (off - 2 ^ n) (rootedIn_child_right db R l r hwf hp)

/-- `Raw::set` on a rooted value over a well-formed store: the outcome is
the pure tree update, and the store stays well-formed with the new root
replacing the old one among the external roots. -/
theorem rawSetD_ok (db : DB) (R : Multiset Val) (t : Val) (d off : Nat) (v : Val)
    (hwf : wfDB db (t ::ₘ R)) :
    rawSetD db t d off v =
      .ok (setPure t d off v, decrefV t (insertV (setPure t d off v) db)) ∧
    wfDB (decrefV t (insertV (setPure t d off v) db)) (setPure t d off v ::ₘ R) := by
  have ht : rootedIn t db :=
    rootedIn_of_wf_mem db _ t hwf (Multiset.mem_cons_self t R)
  have hchk := walkChk_ok db _ hwf d t off ht
  constructor
  · simp only [rawSetD, hchk]
  · have h1 := wfDB_insertV (setPure t d off v) db (t ::ₘ R) hwf
    rw [Multiset.cons_swap] at h1
    exact wfDB_decrefV t _ _ h1

/-- Pointwise-equal leaf functions build the same tree. -/
theorem mkTreeF_congr : ∀ (d : Nat) (f g : Nat → Val),
    (∀ i, i < 2 ^ d → f i = g i) → mkTreeF d f = mkTreeF d g := by
  intro d
  induction d with
  | zero =>
    intro f g h
    simpa [mkTreeF] using h 0 (by omega)
  | succ n ih =>
    intro f g h
    have h2 : (2:Nat) ^ (n + 1) = 2 ^ n + 2 ^ n := by ring
    simp only [mkTreeF]
    rw [ih f g fun i hi => h i (by omega),
      ih (fun i => f (2 ^ n + i)) (fun i => g (2 ^ n + i)) fun i hi => h _ (by omega)]

/-- Reading leaf `off` of a depth-`d` perfect tree. -/
theorem getP_mkTreeF : ∀ (d : Nat) (f : Nat → Val) (off : Nat), off < 2 ^ d →
    getP (mkTreeF d f) d off = some (f off) := by
  intro d
  induction d with
  | zero =>
    intro f off h
    have : off = 0 := by omega
    subst this
    simp [mkTreeF, getP]
  | succ n ih =>
    intro f off h
    simp only [mkTreeF, getP]
    by_cases hoff : off < 2 ^ n
    · rw [if_pos hoff]
      exact ih f off hoff
    · rw [if_neg hoff]
      have h2 : (2:Nat) ^ (n + 1) = 2 ^ n + 2 ^ n := by ring
      rw [ih _ (off - 2 ^ n) (by omega)]
      congr 2
      omega

/-- Writing leaf `off` of a depth-`d` perfect tree is a pointwise leaf
update. -/
theorem setPure_mkTreeF : ∀ (d : Nat) (f : Nat → Val) (off : Nat) (v : Val),
    off < 2 ^ d → setPure (mkTreeF d f) d off v = mkTreeF d (updF f off v) := by
  intro d
  induction d with
  | zero =>
    intro f off v h
    have : off = 0 := by omega
    subst this
    simp [mkTreeF, setPure, updF]
  | succ n ih =>
    intro f off v h
    have h2 : (2:Nat) ^ (n + 1) = 2 ^ n + 2 ^ n := by ring
    simp only [mkTreeF, setPure]
    by_cases hoff : off < 2 ^ n
    · rw [if_pos hoff, ih f off v hoff]
      congr 1
      apply mkTreeF_congr
      intro i hi
      simp only [updF]
      rw [if_neg (by omega)]
    · rw [if_neg hoff, ih _ (off - 2 ^ n) v (by omega)]
      congr 1
      · apply mkTreeF_congr
        intro i hi
        simp only [updF]
        rw [if_neg (by omega)]
      · apply mkTreeF_congr
        intro i hi
        simp only [updF]
        by_cases hio : i = off - 2 ^ n
        · rw [if_pos hio, if_pos (by omega)]
        · rw [if_neg hio, if_neg (by omega)]

/-- The memoized empty subtree is the perfect tree of zero leaves. -/
theorem emptyAt_mkTreeF : ∀ d : Nat, emptyAt d = mkTreeF d fun _ => .End zeroBytes := by
  intro d
  induction d with
  | zero => rfl
  | succ n ih => simp only [emptyAt, mkTreeF, ih]

/-- Replacing the depth-`dd`, offset-`m` node of a perfect tree of depth
`dd + e` by a perfect subtree of depth `e` overrides the leaf block
`[m·2^e, (m+1)·2^e)`. -/
theorem setPure_block : ∀ (dd : Nat) (e m : Nat) (f g : Nat → Val), m < 2 ^ dd →
    setPure (mkTreeF (dd + e) f) dd m (mkTreeF e g) =
    mkTreeF (dd + e) fun i =>
      if m * 2 ^ e ≤ i ∧ i < (m + 1) * 2 ^ e then g (i - m * 2 ^ e) else f i := by
  intro dd
  induction dd with
  | zero =>
    intro e m f g hm
    have hm0 : m = 0 := by omega
    subst hm0
    simp only [setPure, Nat.zero_add, Nat.zero_mul, Nat.one_mul, Nat.sub_zero]
    apply mkTreeF_congr
    intro i hi
    rw [if_pos ⟨Nat.zero_le i, hi⟩]
  | succ n ih =>
    intro e m f g hm
    have hsplit : (2:Nat) ^ (n + e) = 2 ^ n * 2 ^ e := by rw [pow_add]
    have hp2 : (2:Nat) ^ (n + 1) = 2 ^ n + 2 ^ n := by ring
    have hadd : n + 1 + e = (n + e) + 1 := by omega
    rw [hadd]
    simp only [mkTreeF, setPure]
    by_cases hoff : m < 2 ^ n
    · rw [if_pos hoff, ih e m f g hoff]
      congr 1
      apply mkTreeF_congr
      intro i hi
      have hcond : ¬(m * 2 ^ e ≤ 2 ^ (n + e) + i ∧ 2 ^ (n + e) + i < (m + 1) * 2 ^ e) := by
        push_neg
        intro _
        have h1 : (m + 1) * 2 ^ e ≤ 2 ^ n * 2 ^ e := Nat.mul_le_mul_right _ (by omega)
        omega
      rw [if_neg hcond]
    · rw [if_neg hoff, ih e (m - 2 ^ n) (fun i => f (2 ^ (n + e) + i)) g (by omega)]
      have hle : (2:Nat) ^ n ≤ m := by omega
      have hkey : m * 2 ^ e = (m - 2 ^ n) * 2 ^ e + 2 ^ (n + e) := by
        rw [Nat.sub_mul, hsplit]
        have h2 : (2:Nat) ^ n * 2 ^ e ≤ m * 2 ^ e := Nat.mul_le_mul_right _ hle
        omega
      have hsucc : (m - 2 ^ n + 1) * 2 ^ e + 2 ^ (n + e) = (m + 1) * 2 ^ e := by
        have e1 : (m - 2 ^ n + 1) * 2 ^ e = (m - 2 ^ n) * 2 ^ e + 2 ^ e :=
          add_one_mul (m - 2 ^ n) (2 ^ e)
        have e2 : (m + 1) * 2 ^ e = m * 2 ^ e + 2 ^ e := add_one_mul m (2 ^ e)
        omega
      congr 1
      · apply mkTreeF_congr
        intro i hi
        have hcond : ¬(m * 2 ^ e ≤ i ∧ i < (m + 1) * 2 ^ e) := by
          push_neg
          intro hc
          omega
        rw [if_neg hcond]
      · apply mkTreeF_congr
        intro i hi
        by_cases hcond : (m - 2 ^ n) * 2 ^ e ≤ i ∧ i < (m - 2 ^ n + 1) * 2 ^ e
        · have hbig : m * 2 ^ e ≤ 2 ^ (n + e) + i ∧ 2 ^ (n + e) + i < (m + 1) * 2 ^ e := by
            obtain ⟨hc1, hc2⟩ := hcond
            constructor
            · omega
            · omega
          rw [if_pos hcond, if_pos hbig]
          congr 1
          omega
        · have hbig : ¬(m * 2 ^ e ≤ 2 ^ (n + e) + i ∧ 2 ^ (n + e) + i < (m + 1) * 2 ^ e) := by
            intro hc
            push_neg at hcond
            obtain ⟨hc1, hc2⟩ := hc
            omega
          rw [if_neg hcond, if_neg hbig]

/-! ## Vector-level facts -/

theorem cml_dyn (s : VecS) (h : s.maxLen = none) :
    currentMaxLen s = doubleWhileLt s.len 1 := by
  simp [currentMaxLen, h]

theorem cml_capped (s : VecS) (M : Nat) (h : s.maxLen = some M) :
    currentMaxLen s = M := by
  simp [currentMaxLen, h]

/-- `2^depth` is the doubling-rounded `current_max_len` (equal to it in
dynamic mode, and its power-of-two ceiling in capped mode). -/
theorem pow_depth (s : VecS) : 2 ^ depth s = doubleWhileLt (currentMaxLen s) 1 :=
  pow_depthCount (currentMaxLen s)

theorem cml_le_pow_depth (s : VecS) : currentMaxLen s ≤ 2 ^ depth s := by
  rw [pow_depth]
  exact dW_ge _

theorem pow_depth_dyn (s : VecS) (h : s.maxLen = none) :
    2 ^ depth s = currentMaxLen s := by
  rw [pow_depth, cml_dyn s h]
  obtain ⟨k, hk⟩ := dW_pow s.len
  rw [hk, dW_pow_self]

/-- In dynamic mode, pushing one element below capacity keeps the
capacity. -/
theorem dW_succ_eq (n : Nat) (h : n < doubleWhileLt n 1) :
    doubleWhileLt (n + 1) 1 = doubleWhileLt n 1 := by
  obtain ⟨k, hk⟩ := dW_pow n
  refine Nat.le_antisymm ?_ ?_
  · rw [hk]
    exact dW_le_pow (n + 1) k (by omega)
  · obtain ⟨j, hj⟩ := dW_pow (n + 1)
    have h1 : n + 1 ≤ doubleWhileLt (n + 1) 1 := dW_ge (n + 1)
    have h2 := dW_le_pow n j (by omega)
    rw [← hj] at h2
    exact h2

/-- In dynamic mode, pushing at exactly capacity `2^K` doubles it. -/
theorem dW_succ_pow (K : Nat) : doubleWhileLt (2 ^ K + 1) 1 = 2 ^ (K + 1) := by
  refine Nat.le_antisymm ?_ ?_
  · refine dW_le_pow _ (K + 1) ?_
    have : (2:Nat) ^ (K + 1) = 2 ^ K + 2 ^ K := by ring
    have hp : (1:Nat) ≤ 2 ^ K := Nat.one_le_two_pow
    omega
  · obtain ⟨j, hj⟩ := dW_pow (2 ^ K + 1)
    have h1 := dW_ge (2 ^ K + 1)
    rw [hj] at h1 ⊢
    have hjk : K < j := by
      by_contra hc
      have : (2:Nat) ^ j ≤ 2 ^ K := Nat.pow_le_pow_right (by omega) (by omega)
      omega
    exact Nat.pow_le_pow_right (by omega) (by omega)

theorem idxDepth_one : idxDepth 1 = 0 := rfl

theorem rawSetIdx_one (db : DB) (t v : Val) : rawSetIdx db t 1 v = rawSetD db t 0 0 v := rfl

theorem rawSetIdx_two (db : DB) (t v : Val) : rawSetIdx db t 2 v = rawSetD db t 1 0 v := rfl

theorem rawSetIdx_three (db : DB) (t v : Val) : rawSetIdx db t 3 v = rawSetD db t 1 1 v := rfl

theorem rawGetIdx_two (db : DB) (t : Val) : rawGetIdx db t 2 = walkGet db t 1 0 := rfl

theorem idxOff_one : idxOff 1 = 0 := rfl

theorem idxDepth_two : idxDepth 2 = 1 := rfl

theorem idxOff_two : idxOff 2 = 0 := rfl

theorem idxDepth_three : idxDepth 3 = 1 := rfl

theorem idxOff_three : idxOff 3 = 1 := rfl

/-- `Vector::extend` over a well-formed store: always succeeds, the new
root is `Intermediate(H(old_root ‖ empty_at[depth]))`, and the store stays
well-formed with the new root replacing the old one. -/
theorem extend_ok (s : VecS) (db : DB) (R : Multiset Val)
    (hdb : wfDB db (s.tree ::ₘ R)) :
    ∃ db3,
      Vextend db s =
        (.ok (), { s with tree := .Intermediate s.tree (emptyAt (depth s)) }, db3) ∧
      wfDB db3 (Val.Intermediate s.tree (emptyAt (depth s)) ::ₘ R) := by
  -- step 1: new_raw.set(EXTEND_INDEX, root) on the fresh raw (root `End 0`)
  have h1 : rawSetD db (.End zeroBytes) 1 0 s.tree =
      .ok (.Intermediate s.tree (.End zeroBytes),
        insertV (.Intermediate s.tree (.End zeroBytes)) db) := by
    have hchk : walkChk db (.End zeroBytes) 1 0 = .ok () := by simp [walkChk]
    simp only [rawSetD, hchk]
    simp [setPure, decrefV, Nat.pow_zero]
  have hwf1 : wfDB (insertV (.Intermediate s.tree (.End zeroBytes)) db)
      (Val.Intermediate s.tree (.End zeroBytes) ::ₘ s.tree ::ₘ R) :=
    wfDB_insertV _ db _ hdb
  -- step 2: new_raw.set(EMPTY_INDEX, empty_at[depth])
  have h2 := rawSetD_ok (insertV (.Intermediate s.tree (.End zeroBytes)) db)
    (s.tree ::ₘ R) (.Intermediate s.tree (.End zeroBytes)) 1 1 (emptyAt (depth s)) hwf1
  have hset2 : setPure (.Intermediate s.tree (.End zeroBytes)) 1 1 (emptyAt (depth s)) =
      .Intermediate s.tree (emptyAt (depth s)) := by
    simp [setPure, Nat.pow_zero]
  rw [hset2] at h2
  obtain ⟨h2eq, h2wf⟩ := h2
  -- step 3: self.raw.set(ROOT_INDEX, End 0) releases the old root
  rw [Multiset.cons_swap] at h2wf
  have h3 := rawSetD_ok _ (Val.Intermediate s.tree (emptyAt (depth s)) ::ₘ R)
    s.tree 0 0 (.End zeroBytes) h2wf
  have hset3 : setPure s.tree 0 0 (.End zeroBytes) = .End zeroBytes := by
    simp [setPure]
  rw [hset3] at h3
  obtain ⟨h3eq, h3wf⟩ := h3
  rw [wfDB_cons_end] at h3wf
  refine ⟨_, ?_, h3wf⟩
  simp only [Vextend, rawSetIdx_one, rawSetIdx_two, rawSetIdx_three, h1, h2eq, h3eq]

/-- The ascent from leaf index `2^D + off` stops `k` levels up at the
index of depth `D - k` and offset `off / 2^k`, where `2^k` divides
`off`. -/
theorem ascend_decomp (D off : Nat) (hoff : off < 2 ^ D) :
    (ascend (2 ^ D + off)).2 ≤ D ∧
    off % 2 ^ (ascend (2 ^ D + off)).2 = 0 ∧
    (ascend (2 ^ D + off)).1 =
      2 ^ (D - (ascend (2 ^ D + off)).2) + off / 2 ^ (ascend (2 ^ D + off)).2 ∧
    off / 2 ^ (ascend (2 ^ D + off)).2 < 2 ^ (D - (ascend (2 ^ D + off)).2) := by
  have hpos : 0 < 2 ^ D + off := by positivity
  obtain ⟨hprod, _, _⟩ := ascend_spec (2 ^ D + off) hpos
  set j := (ascend (2 ^ D + off)).1 with hj
  set k := (ascend (2 ^ D + off)).2 with hk
  have hpk : (0:Nat) < 2 ^ k := Nat.pos_pow_of_pos _ (by omega)
  have hjpos : 0 < j := by
    rcases Nat.eq_zero_or_pos j with h0 | h
    · rw [h0] at hprod; omega
    · exact h
  have hkD : k ≤ D := by
    by_contra hc
    have h1 : (2:Nat) ^ (D + 1) ≤ 2 ^ k := Nat.pow_le_pow_right (by omega) (by omega)
    have h2 : 2 ^ k ≤ j * 2 ^ k := Nat.le_mul_of_pos_left _ hjpos
    have h3 : (2:Nat) ^ (D + 1) = 2 ^ D + 2 ^ D := by ring
    omega
  have hdvd : 2 ^ k ∣ off := by
    have hd1 : 2 ^ k ∣ 2 ^ D + off := ⟨j, by rw [← hprod]; ring⟩
    have hd2 : (2:Nat) ^ k ∣ 2 ^ D := pow_dvd_pow 2 hkD
    exact (Nat.dvd_add_right hd2).mp hd1
  obtain ⟨q, hq⟩ := hdvd
  have hDk : (2:Nat) ^ D = 2 ^ k * 2 ^ (D - k) := by
    rw [← pow_add]
    congr 1
    omega
  have hjq : j = 2 ^ (D - k) + q := by
    have : j * 2 ^ k = (2 ^ (D - k) + q) * 2 ^ k := by
      rw [hprod, hq, hDk]
      ring
    exact Nat.eq_of_mul_eq_mul_right hpk this
  have hqlt : q < 2 ^ (D - k) := by
    have : 2 ^ k * q < 2 ^ k * 2 ^ (D - k) := by omega
    exact Nat.lt_of_mul_lt_mul_left this
  have hdivq : off / 2 ^ k = q := by
    rw [hq, Nat.mul_div_cancel_left _ hpk]
  refine ⟨hkD, ?_, ?_, ?_⟩
  · rw [hq]
    exact Nat.mul_mod_right _ _
  · rw [hdivq, hjq]
  · rw [hdivq]; exact hqlt

/-- Overwriting the all-left zero subtree above the popped leaf `n - 1`
with the memoized empty subtree restores the canonical tree of length
`n - 1`: the coalescing step of `pop` (spec §4.4, invariant (2)). -/
theorem coalesce_eq (D k n : Nat) (f : Nat → Val) (hn : 0 < n)
    (hk : k ≤ D) (hmod : (n - 1) % 2 ^ k = 0)
    (hq : (n - 1) / 2 ^ k < 2 ^ (D - k)) :
    setPure (mkTreeF D (zeroPad f n)) (D - k) ((n - 1) / 2 ^ k) (emptyAt k) =
    mkTreeF D (zeroPad f (n - 1)) := by
  have hpk : (0:Nat) < 2 ^ k := Nat.pos_pow_of_pos _ (by omega)
  set dd := D - k with hdd
  have hD : D = dd + k := by omega
  rw [emptyAt_mkTreeF, hD]
  rw [setPure_block dd k ((n - 1) / 2 ^ k) _ _ hq]
  apply mkTreeF_congr
  intro i hi
  have hmk : (n - 1) / 2 ^ k * 2 ^ k = n - 1 :=
    Nat.div_mul_cancel (Nat.dvd_of_mod_eq_zero hmod)
  have hsucc : ((n - 1) / 2 ^ k + 1) * 2 ^ k = (n - 1) + 2 ^ k := by
    rw [add_one_mul, hmk]
  by_cases hcond : (n - 1) / 2 ^ k * 2 ^ k ≤ i ∧ i < ((n - 1) / 2 ^ k + 1) * 2 ^ k
  · rw [if_pos hcond]
    have hge : n - 1 ≤ i := by omega
    simp only [zeroPad]
    rw [if_neg (by omega)]
  · rw [if_neg hcond]
    push_neg at hcond
    simp only [zeroPad]
    by_cases hilt : i < n - 1
    · rw [if_pos hilt, if_pos (by omega)]
    · have hge : n - 1 ≤ i := by omega
      have := hcond (by omega)
      rw [if_neg (by omega), if_neg (by omega)]

/-- `Vector::pop` on a non-empty well-formed vector: the popped value is
leaf `len - 1`; the coalescing write (at the ascent stop, with
`empty_at[k]`) restores the canonical tree of length `len - 1`; when the
shrink condition `len - 1 ≤ current_max_len/2` holds in dynamic mode the
left child is then moved to the root.  The store stays well-formed with
the surviving root. -/
theorem pop_wf (s : VecS) (db : DB) (R : Multiset Val) (f : Nat → Val)
    (hn : 0 < s.len)
    (htree : s.tree = mkTreeF (depth s) (zeroPad f s.len))
    (hlen : s.len ≤ 2 ^ depth s)
    (hdb : wfDB db (s.tree ::ₘ R)) :
    (¬(s.len - 1 ≤ currentMaxLen s / 2 ∧ s.maxLen = none) →
      Vpop db s = (.ok (some (f (s.len - 1))),
        ⟨mkTreeF (depth s) (zeroPad f (s.len - 1)), s.len - 1, s.maxLen⟩,
        decrefV s.tree (insertV (mkTreeF (depth s) (zeroPad f (s.len - 1))) db)) ∧
      wfDB (decrefV s.tree (insertV (mkTreeF (depth s) (zeroPad f (s.len - 1))) db))
        (mkTreeF (depth s) (zeroPad f (s.len - 1)) ::ₘ R)) ∧
    ((s.len - 1 ≤ currentMaxLen s / 2 ∧ s.maxLen = none) →
      Vpop db s = (.ok (some (f (s.len - 1))),
        ⟨shrinkTreeOf (mkTreeF (depth s) (zeroPad f (s.len - 1))), s.len - 1, s.maxLen⟩,
        decrefV (mkTreeF (depth s) (zeroPad f (s.len - 1)))
          (insertV (shrinkTreeOf (mkTreeF (depth s) (zeroPad f (s.len - 1))))
            (decrefV s.tree (insertV (mkTreeF (depth s) (zeroPad f (s.len - 1))) db)))) ∧
      wfDB (decrefV (mkTreeF (depth s) (zeroPad f (s.len - 1)))
          (insertV (shrinkTreeOf (mkTreeF (depth s) (zeroPad f (s.len - 1))))
            (decrefV s.tree (insertV (mkTreeF (depth s) (zeroPad f (s.len - 1))) db))))
        (shrinkTreeOf (mkTreeF (depth s) (zeroPad f (s.len - 1))) ::ₘ R)) := by
  have hoff : s.len - 1 < 2 ^ depth s := by omega
  have hrooted : rootedIn s.tree db :=
    rootedIn_of_wf_mem db _ s.tree hdb (Multiset.mem_cons_self _ _)
  have hget : rawGetIdx db s.tree (2 ^ depth s + (s.len - 1)) =
      .ok (some (f (s.len - 1))) := by
    rw [rawGetIdx, idxDepth_from_depth _ _ hoff, idxOff_from_depth _ _ hoff,
      walkGet_eq_getP db _ hdb _ _ _ hrooted, htree, getP_mkTreeF _ _ _ hoff]
    simp only [zeroPad]
    rw [if_pos (by omega)]
  obtain ⟨hk, hmod, hjq, hqlt⟩ := ascend_decomp (depth s) (s.len - 1) hoff
  have hsets : setPure s.tree (depth s - (ascend (2 ^ depth s + (s.len - 1))).2)
      ((s.len - 1) / 2 ^ (ascend (2 ^ depth s + (s.len - 1))).2)
      (emptyAt (ascend (2 ^ depth s + (s.len - 1))).2) =
      mkTreeF (depth s) (zeroPad f (s.len - 1)) := by
    rw [htree]
    exact coalesce_eq (depth s) _ s.len f hn hk hmod hqlt
  have hset := rawSetD_ok db R s.tree
    (depth s - (ascend (2 ^ depth s + (s.len - 1))).2)
    ((s.len - 1) / 2 ^ (ascend (2 ^ depth s + (s.len - 1))).2)
    (emptyAt (ascend (2 ^ depth s + (s.len - 1))).2) hdb
  rw [hsets] at hset
  obtain ⟨hseteq, hsetwf⟩ := hset
  have hwrite : rawSetIdx db s.tree (ascend (2 ^ depth s + (s.len - 1))).1
      (emptyAt (ascend (2 ^ depth s + (s.len - 1))).2) =
      .ok (mkTreeF (depth s) (zeroPad f (s.len - 1)),
        decrefV s.tree (insertV (mkTreeF (depth s) (zeroPad f (s.len - 1))) db)) := by
    rw [rawSetIdx, hjq, idxDepth_from_depth _ _ hqlt, idxOff_from_depth _ _ hqlt]
    exact hseteq
  have ht2rooted : rootedIn (mkTreeF (depth s) (zeroPad f (s.len - 1)))
      (decrefV s.tree (insertV (mkTreeF (depth s) (zeroPad f (s.len - 1))) db)) :=
    rootedIn_of_wf_mem _ _ _ hsetwf (Multiset.mem_cons_self _ _)
  have hsget : rawGetIdx
      (decrefV s.tree (insertV (mkTreeF (depth s) (zeroPad f (s.len - 1))) db))
      (mkTreeF (depth s) (zeroPad f (s.len - 1))) 2 =
      .ok (getP (mkTreeF (depth s) (zeroPad f (s.len - 1))) 1 0) := by
    rw [rawGetIdx_two]
    exact walkGet_eq_getP _ _ hsetwf 1 _ 0 ht2rooted
  have hshr := rawSetD_ok _ R (mkTreeF (depth s) (zeroPad f (s.len - 1))) 0 0
    (shrinkTreeOf (mkTreeF (depth s) (zeroPad f (s.len - 1)))) hsetwf
  have hsp0 : setPure (mkTreeF (depth s) (zeroPad f (s.len - 1))) 0 0
      (shrinkTreeOf (mkTreeF (depth s) (zeroPad f (s.len - 1)))) =
      shrinkTreeOf (mkTreeF (depth s) (zeroPad f (s.len - 1))) := by
    simp [setPure]
  rw [hsp0] at hshr
  obtain ⟨hshreq, hshrwf⟩ := hshr
  have hshrink : Vshrink (decrefV s.tree (insertV (mkTreeF (depth s) (zeroPad f (s.len - 1))) db))
      { s with tree := mkTreeF (depth s) (zeroPad f (s.len - 1)) } =
      (.ok (), { s with tree := shrinkTreeOf (mkTreeF (depth s) (zeroPad f (s.len - 1))) },
        decrefV (mkTreeF (depth s) (zeroPad f (s.len - 1)))
          (insertV (shrinkTreeOf (mkTreeF (depth s) (zeroPad f (s.len - 1))))
            (decrefV s.tree (insertV (mkTreeF (depth s) (zeroPad f (s.len - 1))) db)))) := by
    cases hgp : getP (mkTreeF (depth s) (zeroPad f (s.len - 1))) 1 0 with
    | none =>
      have hst : shrinkTreeOf (mkTreeF (depth s) (zeroPad f (s.len - 1))) = .End zeroBytes := by
        simp [shrinkTreeOf, hgp]
      rw [hgp] at hsget
      rw [hst] at hshreq ⊢
      simp only [Vshrink, hsget, rawSetIdx_one, hshreq]
    | some ev =>
      have hst : shrinkTreeOf (mkTreeF (depth s) (zeroPad f (s.len - 1))) = ev := by
        simp [shrinkTreeOf, hgp]
      rw [hgp] at hsget
      rw [hst] at hshreq ⊢
      simp only [Vshrink, hsget, rawSetIdx_one, hshreq]
  constructor
  · intro hns
    refine ⟨?_, hsetwf⟩
    simp only [Vpop, if_neg (by omega : ¬ s.len = 0), rawIndex, hget, hwrite,
      if_neg hns]
  · intro hs
    refine ⟨?_, hshrwf⟩
    simp only [Vpop, if_neg (by omega : ¬ s.len = 0), rawIndex, hget, hwrite,
      if_pos hs, hshrink]

/-- Writing the pushed value at the old length slot of a canonical tree
yields the canonical tree one longer. -/
theorem updF_zeroPad (f : Nat → Val) (n : Nat) (v : Val) (i : Nat) :
    updF (zeroPad f n) n v i = zeroPad (updF f n v) (n + 1) i := by
  simp only [updF, zeroPad]
  by_cases hin : i = n
  · subst hin
    rw [if_pos rfl, if_pos (by omega), if_pos rfl]
  · rw [if_neg hin]
    by_cases hlt : i < n
    · rw [if_pos hlt, if_pos (by omega), if_neg hin]
    · rw [if_neg hlt, if_neg (by omega)]

/-- After a dynamic-mode extend at full capacity `2^D`, the extended tree
is the canonical tree of the old leaves at depth `D + 1`. -/
theorem extend_tree_canonical (D : Nat) (f : Nat → Val) :
    Val.Intermediate (mkTreeF D (zeroPad f (2 ^ D))) (emptyAt D) =
    mkTreeF (D + 1) (zeroPad f (2 ^ D)) := by
  rw [emptyAt_mkTreeF]
  simp only [mkTreeF]
  congr 1
  apply mkTreeF_congr
  intro i hi
  simp only [zeroPad]
  rw [if_neg (by omega)]

/-- `Vector::push` on a well-formed vector: at capacity it fails with
`AccessOverflowed` (capped) or extends, doubling `current_max_len` and
incrementing `depth` (dynamic); in the non-failing cases the value lands
at leaf offset `old len`, the length increments, and the tree stays
canonical for the updated leaves.  The store stays well-formed. -/
theorem push_wf (s : VecS) (db : DB) (R : Multiset Val) (f : Nat → Val) (v : Val)
    (htree : s.tree = mkTreeF (depth s) (zeroPad f s.len))
    (hlen : s.len ≤ 2 ^ depth s)
    (hdb : wfDB db (s.tree ::ₘ R)) :
    (s.len = currentMaxLen s → s.maxLen.isSome →
      Vpush db s v = (.error .AccessOverflowed, s, db)) ∧
    (s.len = currentMaxLen s → s.maxLen = none →
      ∃ db4,
        Vpush db s v = (.ok (),
          ⟨mkTreeF (depth s + 1) (zeroPad (updF f s.len v) (s.len + 1)),
            s.len + 1, s.maxLen⟩, db4) ∧
        wfDB db4
          (mkTreeF (depth s + 1) (zeroPad (updF f s.len v) (s.len + 1)) ::ₘ R) ∧
        currentMaxLen ⟨mkTreeF (depth s + 1) (zeroPad (updF f s.len v) (s.len + 1)),
            s.len + 1, s.maxLen⟩ = 2 * currentMaxLen s ∧
        depth ⟨mkTreeF (depth s + 1) (zeroPad (updF f s.len v) (s.len + 1)),
            s.len + 1, s.maxLen⟩ = depth s + 1) ∧
    (s.len < currentMaxLen s →
      ∃ db2,
        Vpush db s v = (.ok (),
          ⟨mkTreeF (depth s) (zeroPad (updF f s.len v) (s.len + 1)),
            s.len + 1, s.maxLen⟩, db2) ∧
        wfDB db2
          (mkTreeF (depth s) (zeroPad (updF f s.len v) (s.len + 1)) ::ₘ R) ∧
        depth ⟨mkTreeF (depth s) (zeroPad (updF f s.len v) (s.len + 1)),
            s.len + 1, s.maxLen⟩ = depth s) := by
  refine ⟨?_, ?_, ?_⟩
  · intro hfull hsome
    simp only [Vpush]
    rw [if_pos hfull, if_pos hsome]
  · intro hfull hdyn
    have hpow : s.len = 2 ^ depth s := by
      rw [hfull, ← pow_depth_dyn s hdyn]
    obtain ⟨db3, hext, hextwf⟩ := extend_ok s db R hdb
    rw [hdyn] at hext
    -- depth of the post-extend state with len+1
    have hcml2 : currentMaxLen ⟨Val.Intermediate s.tree (emptyAt (depth s)),
        s.len + 1, none⟩ = 2 ^ (depth s + 1) := by
      rw [cml_dyn _ rfl]
      show doubleWhileLt (s.len + 1) 1 = 2 ^ (depth s + 1)
      rw [hpow, dW_succ_pow]
    have hdepth2 : depth ⟨Val.Intermediate s.tree (emptyAt (depth s)),
        s.len + 1, none⟩ = depth s + 1 := by
      rw [depth, hcml2, depthCount_pow_self]
    -- the leaf write at offset `old len = 2^D`
    have hoff2 : s.len < 2 ^ (depth s + 1) := by
      have : (2:Nat) ^ (depth s + 1) = 2 ^ depth s + 2 ^ depth s := by ring
      have hp : (0:Nat) < 2 ^ depth s := Nat.pos_pow_of_pos _ (by omega)
      omega
    have ht2 : Val.Intermediate s.tree (emptyAt (depth s)) =
        mkTreeF (depth s + 1) (zeroPad f s.len) := by
      rw [htree, hpow]
      exact extend_tree_canonical (depth s) f
    have hset := rawSetD_ok db3 R (Val.Intermediate s.tree (emptyAt (depth s)))
      (depth s + 1) s.len v hextwf
    have hsets : setPure (Val.Intermediate s.tree (emptyAt (depth s)))
        (depth s + 1) s.len v =
        mkTreeF (depth s + 1) (zeroPad (updF f s.len v) (s.len + 1)) := by
      rw [ht2, setPure_mkTreeF _ _ _ _ hoff2]
      exact mkTreeF_congr _ _ _ fun i _ => updF_zeroPad f s.len v i
    rw [hsets] at hset
    obtain ⟨hseteq, hsetwf⟩ := hset
    have hwrite : rawSetIdx db3 (Val.Intermediate s.tree (emptyAt (depth s)))
        (2 ^ (depth s + 1) + s.len) v =
        .ok (mkTreeF (depth s + 1) (zeroPad (updF f s.len v) (s.len + 1)),
          decrefV (Val.Intermediate s.tree (emptyAt (depth s)))
            (insertV (mkTreeF (depth s + 1) (zeroPad (updF f s.len v) (s.len + 1))) db3)) := by
      rw [rawSetIdx, idxDepth_from_depth _ _ hoff2, idxOff_from_depth _ _ hoff2]
      exact hseteq
    refine ⟨_, ?_, hsetwf, ?_, ?_⟩
    · simp only [Vpush, if_pos hfull, hdyn, Option.isSome_none, Bool.false_eq_true,
        if_false, hext, rawIndex, hdepth2, hwrite]
    · rw [cml_dyn _ (by rw [hdyn])]
      show doubleWhileLt (s.len + 1) 1 = 2 * currentMaxLen s
      rw [hpow, dW_succ_pow, ← pow_depth_dyn s hdyn]
      ring
    · rw [depth, cml_dyn _ (by rw [hdyn])]
      show depthCount (doubleWhileLt (s.len + 1) 1) 1 = depth s + 1
      rw [hpow, dW_succ_pow, depthCount_pow_self]
  · intro hlt
    have hcml2 : ∀ t : Val, currentMaxLen ⟨t, s.len + 1, s.maxLen⟩ = currentMaxLen s := by
      intro t
      cases hm : s.maxLen with
      | none =>
        rw [cml_dyn _ rfl, cml_dyn _ hm]
        show doubleWhileLt (s.len + 1) 1 = doubleWhileLt s.len 1
        have hfull : s.len < doubleWhileLt s.len 1 := by
          rw [← cml_dyn s hm]
          exact hlt
        exact dW_succ_eq s.len hfull
      | some M => rw [cml_capped _ M rfl, cml_capped _ M hm]
    have hdepth2 : ∀ t : Val, depth ⟨t, s.len + 1, s.maxLen⟩ = depth s := by
      intro t
      rw [depth, hcml2 t, depth]
    have hoff : s.len < 2 ^ depth s := by
      have := cml_le_pow_depth s
      omega
    have hset := rawSetD_ok db R s.tree (depth s) s.len v hdb
    have hsets : setPure s.tree (depth s) s.len v =
        mkTreeF (depth s) (zeroPad (updF f s.len v) (s.len + 1)) := by
      rw [htree, setPure_mkTreeF _ _ _ _ hoff]
      exact mkTreeF_congr _ _ _ fun i _ => updF_zeroPad f s.len v i
    rw [hsets] at hset
    obtain ⟨hseteq, hsetwf⟩ := hset
    have hwrite : rawSetIdx db s.tree (2 ^ depth s + s.len) v =
        .ok (mkTreeF (depth s) (zeroPad (updF f s.len v) (s.len + 1)),
          decrefV s.tree
            (insertV (mkTreeF (depth s) (zeroPad (updF f s.len v) (s.len + 1))) db)) := by
      rw [rawSetIdx, idxDepth_from_depth _ _ hoff, idxOff_from_depth _ _ hoff]
      exact hseteq
    refine ⟨_, ?_, hsetwf, ?_⟩
    · simp only [Vpush, if_neg (by omega : ¬ s.len = currentMaxLen s), rawIndex,
        hdepth2, hwrite]
    · exact hdepth2 _

theorem getP_top (d : Nat) (g : Nat → Val) :
    getP (mkTreeF (d + 1) g) 1 0 = some (mkTreeF d g) := by
  simp [mkTreeF, getP]

theorem zeroPad_updF_lower (f : Nat → Val) (n : Nat) (v : Val) (i : Nat) :
    zeroPad (updF f n v) n i = zeroPad f n i := by
  simp only [zeroPad, updF]
  by_cases hlt : i < n
  · rw [if_pos hlt, if_pos hlt, if_neg (by omega)]
  · rw [if_neg hlt, if_neg hlt]

theorem pow_succ_div_two (K : Nat) : 2 ^ (K + 1) / 2 = 2 ^ K := by
  rw [pow_succ]
  exact Nat.mul_div_cancel _ (by omega)

/-! ## Small helpers for concrete instances and the bit-packing fold -/

theorem wfDB_empty : wfDB 0 0 := by
  intro k
  simp [rootRefs, parentRefs]

theorem rawSetIdx_end_root (db : DB) (b : Bytes) (v : Val) :
    rawSetIdx db (.End b) 1 v = .ok (v, insertV v db) := rfl

theorem getD_replicate_zero (k : Nat) : ∀ i : Nat,
    (List.replicate k (0 : Nat)).getD i 0 = 0 := by
  induction k with
  | zero => intro i; cases i <;> rfl
  | succ m ih =>
    intro i
    cases i with
    | zero => rfl
    | succ j => exact ih j

theorem getD_set_self (l : List Nat) : ∀ (j x : Nat), j < l.length →
    (l.set j x).getD j 0 = x := by
  induction l with
  | nil => intro j x h; simp at h
  | cons a t ih =>
    intro j x h
    cases j with
    | zero => rfl
    | succ m => exact ih m x (by simpa using h)

theorem getD_set_other (l : List Nat) : ∀ (j k x : Nat), j ≠ k →
    (l.set j x).getD k 0 = l.getD k 0 := by
  induction l with
  | nil => intro j k x h; rfl
  | cons a t ih =>
    intro j k x h
    cases j with
    | zero =>
      cases k with
      | zero => exact absurd rfl h
      | succ p => rfl
    | succ m =>
      cases k with
      | zero => rfl
      | succ p => exact ih m p x (by omega)

/-- One step of the `bool` bit-packing loop: writing source bit `m` into
byte `m / 8` at position `m % 8` preserves the byte count and sets exactly
the claimed bit, leaving every other bit as it was. -/
theorem packStep_bits (v : List Bool) (B : List Nat) (m K : Nat)
    (hlen : B.length = K) (hm8 : m / 8 < K)
    (hbit : ∀ i, (B.getD (i / 8) 0).testBit (i % 8) =
      (decide (i < m) && v.getD i false)) :
    (B.set (m / 8)
      (B.getD (m / 8) 0 ||| (if v.getD m false then 1 else 0) <<< (m % 8))).length = K ∧
    ∀ i, ((B.set (m / 8)
        (B.getD (m / 8) 0 ||| (if v.getD m false then 1 else 0) <<< (m % 8))).getD
        (i / 8) 0).testBit (i % 8) =
      (decide (i < m + 1) && v.getD i false) := by
  have hm8' : m / 8 < B.length := by omega
  refine ⟨by rw [List.length_set, hlen], ?_⟩
  intro i
  by_cases hj : i / 8 = m / 8
  · by_cases him : i = m
    · rw [him, getD_set_self _ _ _ hm8', Nat.testBit_or, hbit m,
        decide_eq_false (by omega : ¬(m < m)), Bool.false_and, Bool.false_or,
        decide_eq_true (by omega : m < m + 1), Bool.true_and,
        Nat.testBit_shiftLeft, decide_eq_true (by omega : m % 8 ≥ m % 8),
        Bool.true_and, Nat.sub_self]
      cases v.getD m false <;> rfl
    · have hr8 : i % 8 ≠ m % 8 := by
        intro he
        exact him (by omega)
      have hsb : ((if v.getD m false then 1 else 0) <<< (m % 8)).testBit (i % 8) =
          false := by
        rw [Nat.testBit_shiftLeft]
        by_cases hle8 : m % 8 ≤ i % 8
        · have hpow : (2 : Nat) ≤ 2 ^ (i % 8 - m % 8) := by
            have h1 : (2 : Nat) ^ 1 ≤ 2 ^ (i % 8 - m % 8) :=
              Nat.pow_le_pow_right (by omega) (by omega)
            simpa using h1
          have hble : (if v.getD m false then 1 else 0) ≤ 1 := by
            cases v.getD m false <;> simp
          rw [decide_eq_true hle8, Bool.true_and,
            Nat.testBit_lt_two_pow (by omega)]
        · rw [decide_eq_false hle8, Bool.false_and]
      have hbi := hbit i
      rw [hj] at hbi
      rw [hj, getD_set_self _ _ _ hm8', Nat.testBit_or, hbi, hsb, Bool.or_false,
        decide_eq_decide.mpr (show (i < m) ↔ (i < m + 1) by omega)]
  · rw [getD_set_other _ _ _ _ (fun he => hj he.symm), hbit i,
      decide_eq_decide.mpr (show (i < m) ↔ (i < m + 1) by omega)]

/-- The bit-packing fold invariant: after the first `n` source indices the
packed list still has `⌈len/8⌉` bytes, and bit `i % 8` of byte `i / 8` is
set exactly when `i < n` and source bit `i` is set. -/
theorem boolPack_fold (v : List Bool) : ∀ n : Nat, n ≤ v.length →
    ((List.range n).foldl
      (fun bs i => bs.set (i / 8)
        (bs.getD (i / 8) 0 ||| (if v.getD i false then 1 else 0) <<< (i % 8)))
      (List.replicate ((v.length + 7) / 8) 0)).length = (v.length + 7) / 8 ∧
    ∀ i : Nat,
      (((List.range n).foldl
        (fun bs i => bs.set (i / 8)
          (bs.getD (i / 8) 0 ||| (if v.getD i false then 1 else 0) <<< (i % 8)))
        (List.replicate ((v.length + 7) / 8) 0)).getD (i / 8) 0).testBit (i % 8) =
      (decide (i < n) && v.getD i false) := by
  intro n
  induction n with
  | zero =>
    intro _
    refine ⟨by simp, ?_⟩
    intro i
    rw [List.range_zero, List.foldl_nil, getD_replicate_zero, Nat.zero_testBit,
      decide_eq_false (by omega : ¬(i < 0)), Bool.false_and]
  | succ m ih =>
    intro hle
    obtain ⟨hlen, hbit⟩ := ih (by omega)
    have hm8 : m / 8 < (v.length + 7) / 8 := by
      have h1 : m / 8 * 8 ≤ m := Nat.div_mul_le_self m 8
      have h2 : (m / 8 + 1) * 8 ≤ v.length + 7 := by omega
      have h3 := (Nat.le_div_iff_mul_le (by omega : 0 < 8)).mpr h2
      omega
    rw [List.range_succ, List.foldl_append, List.foldl_cons, List.foldl_nil]
    exact packStep_bits v _ m _ hlen hm8 hbit

/-! ## Claim C1 -/

/-- C1: `Vector::create`'s parameter guard is inverted with respect to the
claim.  The claim requires `create(db, len, Some(m))` to succeed for every
`m ≥ 1`, `len ≤ m`, and to fail with `InvalidParameter` exactly when
`m = 0` or `len > m`; the source (vector.rs:237, `if (len as u64) <
max_len || max_len == 0`) instead *rejects* `len = 0 < 1 = m` and
*accepts* `len = 2 > 1 = m`. -/
theorem create_rejects_len_lt_max :
    (Vcreate 0 0 (some 1)).1 = .error .InvalidParameter ∧
    (Vcreate 0 2 (some 1)).1 = .ok ⟨.End zeroBytes, 2, some 1⟩ := by
  decide

/-! ## Claim C2 -/

/-- C2 counterexample: starting from `create(0, None)` (= `s4Start`, as
witnessed by the first conjunct) and pushing `a`, `b`, `c` reaches the S4
state with root `H(H(a‖b) ‖ H(c‖0))` and `current_max_len = 4`; but the
*first* pop, while indeed returning `c`, already shrinks: the resulting
root is `H(a‖b)` — not the claimed `H(H(a‖b) ‖ empty_at[1])` — and
`current_max_len` is already `2`, not `4`. -/
theorem s5_first_pop_already_shrinks :
    (Vcreate 0 0 none).1 = .ok s4Start.1 ∧ (Vcreate 0 0 none).2 = s4Start.2 ∧
    (Vpush s4Start.2 s4Start.1 leafA).1 = .ok () ∧
    (Vpush (pushedState s4Start leafA).2 (pushedState s4Start leafA).1 leafB).1 = .ok () ∧
    (Vpush (pushedState (pushedState s4Start leafA) leafB).2
      (pushedState (pushedState s4Start leafA) leafB).1 leafC).1 = .ok () ∧
    s4After3.1 = ⟨.Intermediate (.Intermediate leafA leafB)
      (.Intermediate leafC (.End zeroBytes)), 3, none⟩ ∧
    currentMaxLen s4After3.1 = 4 ∧
    (Vpop s4After3.2 s4After3.1).1 = .ok (some leafC) ∧
    (Vpop s4After3.2 s4After3.1).2.1.tree = .Intermediate leafA leafB ∧
    ¬(Vpop s4After3.2 s4After3.1).2.1.tree =
      .Intermediate (.Intermediate leafA leafB) (emptyAt 1) ∧
    currentMaxLen (Vpop s4After3.2 s4After3.1).2.1 = 2 := by
  decide

/-- C2 amended: in the S4/S5 scenario the first pop returns `c` *and
already shrinks* (the shrink condition `len ≤ current_max_len/2`, i.e.
`2 ≤ 4/2`, holds immediately), leaving root `H(a‖b)` and
`current_max_len = 2`; the second pop returns `b`, leaving root `a` and
`current_max_len = 1`. -/
theorem s5_pop_sequence_actual :
    (Vpop s4After3.2 s4After3.1).1 = .ok (some leafC) ∧
    s5After1.1 = ⟨.Intermediate leafA leafB, 2, none⟩ ∧
    currentMaxLen s5After1.1 = 2 ∧
    (Vpop s5After1.2 s5After1.1).1 = .ok (some leafB) ∧
    (Vpop s5After1.2 s5After1.1).2.1 = ⟨leafA, 1, none⟩ ∧
    currentMaxLen (Vpop s5After1.2 s5After1.1).2.1 = 1 := by
  decide

/-! ## Claim C3 -/

/-- C3 counterexample: `create(db, 3, Some(3))` is accepted by the source's
guard, and on the resulting vector `current_max_len()` returns the cap `3`
itself (vector.rs:54 `self.max_len.unwrap_or(..)`) — not a power of two,
and not `4 = ⌈log2 3⌉`-rounded as the claim states. -/
theorem capped_currentMaxLen_not_pow2 :
    (Vcreate 0 3 (some 3)).1 = .ok ⟨emptyAt 2, 3, some 3⟩ ∧
    currentMaxLen ⟨emptyAt 2, 3, some 3⟩ = 3 ∧
    ∀ k : Nat, 2 ^ k ≠ 3 := by
  refine ⟨by decide, by decide, ?_⟩
  intro k
  match k with
  | 0 => decide
  | 1 => decide
  | k + 2 =>
    have h1 : 1 ≤ 2 ^ k := Nat.one_le_two_pow
    have h2 : 2 ^ (k + 2) = 4 * 2 ^ k := by ring
    omega

/-! ## Claim C6 -/

/-- C6: the packing round-trip fails for `bool` at `max_len = 64`.  The
`bool` encoder (elemental_fixed.rs:197) passes the *bool-count* `max_len`
to the `u8` encoder, producing a chunk bound `⌈64/32⌉ = 2` and hence a
depth-1 tree even for a single set bit; the `bool` decoder
(elemental_fixed.rs:212) converts to a *byte-count* bound `⌈64/8⌉ = 8`,
giving `⌈8/32⌉ = 1` chunk and depth 0, so it reads the intermediate root
as a chunk and fails with `CorruptedDatabase` instead of returning
`[true]`. -/
theorem bool_roundtrip_fails_at_max64 :
    (intoVectorTreeBool [true] 0 (some 64)).1 =
      .Intermediate (.End (1 :: List.replicate 31 0)) (.End zeroBytes) ∧
    fromVectorTreeBool (intoVectorTreeBool [true] 0 (some 64)).1
      (intoVectorTreeBool [true] 0 (some 64)).2 1 (some 64) =
      .error .CorruptedDatabase ∧
    fromVectorTreeBool (intoVectorTreeBool [true] 0 (some 9)).1
      (intoVectorTreeBool [true] 0 (some 9)).2 1 (some 9) = .ok [true] := by
  decide

/-! ## Claim C8 -/

/-- C8 counterexample: a failed `push` does *not* leave the vector's
observable state unchanged.  On a vector adopted over an empty (corrupted)
store, the leaf write fails with `CorruptedDatabase`, but `self.len` was
already incremented (vector.rs:123-125 assigns `self.len = len` before the
fallible `raw.set`): the returned state has `len = 2`, not `1`. -/
theorem push_failure_mutates_len :
    Vpush 0 ⟨.Intermediate (.End zeroBytes) (.End zeroBytes), 1, some 2⟩ (.End [7]) =
      (.error .CorruptedDatabase,
        ⟨.Intermediate (.End zeroBytes) (.End zeroBytes), 2, some 2⟩, 0) := by
  decide

/-! ## Claim C5 -/

/-- C5: `Vector::push` on a well-formed vector (canonical tree, length
within the depth's capacity, well-formed store): at `len =
current_max_len` a capped vector fails with `AccessOverflowed`; a dynamic
vector first extends — the new root becomes
`Intermediate(H(old_root ‖ empty_at[D]))` (the `Vextend` conjunct),
`current_max_len` doubles and `depth` increments — and in every
non-failing case the pushed value is written at leaf offset `old len` and
`len` increments. -/
theorem push_spec (s : VecS) (db : DB) (R : Multiset Val) (f : Nat → Val) (v : Val)
    (htree : s.tree = mkTreeF (depth s) (zeroPad f s.len))
    (hlen : s.len ≤ 2 ^ depth s)
    (hdb : wfDB db (s.tree ::ₘ R)) :
    (s.len = currentMaxLen s ∧ s.maxLen.isSome →
      Vpush db s v = (.error .AccessOverflowed, s, db)) ∧
    (s.len = currentMaxLen s ∧ s.maxLen = none →
      (∃ db3, Vextend db s =
        (.ok (), { s with tree := .Intermediate s.tree (emptyAt (depth s)) }, db3)) ∧
      (Vpush db s v).1 = .ok () ∧
      (Vpush db s v).2.1.len = s.len + 1 ∧
      currentMaxLen (Vpush db s v).2.1 = 2 * currentMaxLen s ∧
      depth (Vpush db s v).2.1 = depth s + 1 ∧
      getP (Vpush db s v).2.1.tree (depth (Vpush db s v).2.1) s.len = some v) ∧
    (s.len < currentMaxLen s →
      (Vpush db s v).1 = .ok () ∧
      (Vpush db s v).2.1.len = s.len + 1 ∧
      depth (Vpush db s v).2.1 = depth s ∧
      getP (Vpush db s v).2.1.tree (depth (Vpush db s v).2.1) s.len = some v) := by
  obtain ⟨ha, hb, hc⟩ := push_wf s db R f v htree hlen hdb
  refine ⟨fun h => ha h.1 h.2, ?_, ?_⟩
  · rintro ⟨hfull, hdyn⟩
    obtain ⟨db4, heq, _, hcml, hdep⟩ := hb hfull hdyn
    obtain ⟨db3, hext, _⟩ := extend_ok s db R hdb
    have hoff : s.len < 2 ^ (depth s + 1) := by
      have h2 : (2:Nat) ^ (depth s + 1) = 2 ^ depth s + 2 ^ depth s := by ring
      have hp : (0:Nat) < 2 ^ depth s := Nat.pos_pow_of_pos _ (by omega)
      omega
    refine ⟨⟨db3, hext⟩, ?_, ?_, ?_, ?_, ?_⟩
    · rw [heq]
    · rw [heq]
    · rw [heq]
      exact hcml
    · rw [heq]
      exact hdep
    · rw [heq]
      simp only [hdep]
      show getP (mkTreeF (depth s + 1) (zeroPad (updF f s.len v) (s.len + 1)))
        (depth s + 1) s.len = some v
      rw [getP_mkTreeF _ _ _ hoff]
      simp [zeroPad, updF, Nat.lt_succ_self]
  · intro hlt
    obtain ⟨db2, heq, _, hdep⟩ := hc hlt
    have hoff : s.len < 2 ^ depth s := by
      have := cml_le_pow_depth s
      omega
    refine ⟨?_, ?_, ?_, ?_⟩
    · rw [heq]
    · rw [heq]
    · rw [heq]
      exact hdep
    · rw [heq]
      simp only [hdep]
      show getP (mkTreeF (depth s) (zeroPad (updF f s.len v) (s.len + 1)))
        (depth s) s.len = some v
      rw [getP_mkTreeF _ _ _ hoff]
      simp [zeroPad, updF, Nat.lt_succ_self]

/-! ## Claim C4 -/

/-- C4: `Vector::pop` on a well-formed vector.  With `len = 0` it returns
`None` with no state change.  Otherwise it returns the leaf at offset
`len - 1`; the ascent loop stops at the first right child or the root
(`j = ri / 2^k` after `k` ascents, every strict ancestor passed being a
left child, the stop being the root or a right child); the node stopped at
is overwritten with `empty_at[k]` (the `rawSetIdx` conjunct, whose result
is the canonical tree of length `len - 1`); and the final length is
`len - 1`. -/
theorem pop_spec (s : VecS) (db : DB) (R : Multiset Val) (f : Nat → Val)
    (htree : s.tree = mkTreeF (depth s) (zeroPad f s.len))
    (hlen : s.len ≤ 2 ^ depth s)
    (hdb : wfDB db (s.tree ::ₘ R)) :
    (s.len = 0 → Vpop db s = (.ok none, s, db)) ∧
    (0 < s.len →
      (Vpop db s).1 = .ok (some (f (s.len - 1))) ∧
      (Vpop db s).2.1.len = s.len - 1 ∧
      (Vpop db s).2.1.maxLen = s.maxLen ∧
      (ascend (rawIndex s (s.len - 1))).1 =
        rawIndex s (s.len - 1) / 2 ^ (ascend (rawIndex s (s.len - 1))).2 ∧
      (∀ m, m < (ascend (rawIndex s (s.len - 1))).2 →
        1 < rawIndex s (s.len - 1) / 2 ^ m ∧
        rawIndex s (s.len - 1) / 2 ^ m % 2 = 0) ∧
      ((ascend (rawIndex s (s.len - 1))).1 = 1 ∨
        (ascend (rawIndex s (s.len - 1))).1 % 2 = 1) ∧
      rawSetIdx db s.tree (ascend (rawIndex s (s.len - 1))).1
        (emptyAt (ascend (rawIndex s (s.len - 1))).2) =
        .ok (coalescedTree s, decrefV s.tree (insertV (coalescedTree s) db)) ∧
      coalescedTree s = mkTreeF (depth s) (zeroPad f (s.len - 1))) := by
  constructor
  · intro h0
    simp [Vpop, h0]
  · intro hn
    have hoff : s.len - 1 < 2 ^ depth s := by omega
    have hpos : 0 < rawIndex s (s.len - 1) := by
      unfold rawIndex
      positivity
    obtain ⟨hprod, hstop, hleft⟩ := ascend_spec (rawIndex s (s.len - 1)) hpos
    have hpk : (0:Nat) < 2 ^ (ascend (rawIndex s (s.len - 1))).2 :=
      Nat.pos_pow_of_pos _ (by omega)
    have hdivj : (ascend (rawIndex s (s.len - 1))).1 =
        rawIndex s (s.len - 1) / 2 ^ (ascend (rawIndex s (s.len - 1))).2 := by
      have h1 := Nat.mul_div_cancel (ascend (rawIndex s (s.len - 1))).1 hpk
      rw [hprod] at h1
      exact h1.symm
    obtain ⟨hk, hmod, hjq, hqlt⟩ := ascend_decomp (depth s) (s.len - 1) hoff
    have hco : coalescedTree s = mkTreeF (depth s) (zeroPad f (s.len - 1)) := by
      show setPure s.tree (idxDepth (ascend (rawIndex s (s.len - 1))).1)
        (idxOff (ascend (rawIndex s (s.len - 1))).1)
        (emptyAt (ascend (rawIndex s (s.len - 1))).2) =
        mkTreeF (depth s) (zeroPad f (s.len - 1))
      show setPure s.tree (idxDepth (ascend (2 ^ depth s + (s.len - 1))).1)
        (idxOff (ascend (2 ^ depth s + (s.len - 1))).1)
        (emptyAt (ascend (2 ^ depth s + (s.len - 1))).2) =
        mkTreeF (depth s) (zeroPad f (s.len - 1))
      rw [hjq, idxDepth_from_depth _ _ hqlt, idxOff_from_depth _ _ hqlt, htree]
      exact coalesce_eq (depth s) _ s.len f hn hk hmod hqlt
    have hset := rawSetD_ok db R s.tree
      (depth s - (ascend (2 ^ depth s + (s.len - 1))).2)
      ((s.len - 1) / 2 ^ (ascend (2 ^ depth s + (s.len - 1))).2)
      (emptyAt (ascend (2 ^ depth s + (s.len - 1))).2) hdb
    have hsets : setPure s.tree (depth s - (ascend (2 ^ depth s + (s.len - 1))).2)
        ((s.len - 1) / 2 ^ (ascend (2 ^ depth s + (s.len - 1))).2)
        (emptyAt (ascend (2 ^ depth s + (s.len - 1))).2) =
        mkTreeF (depth s) (zeroPad f (s.len - 1)) := by
      rw [htree]
      exact coalesce_eq (depth s) _ s.len f hn hk hmod hqlt
    rw [hsets] at hset
    obtain ⟨hseteq, _⟩ := hset
    have hwrite : rawSetIdx db s.tree (ascend (rawIndex s (s.len - 1))).1
        (emptyAt (ascend (rawIndex s (s.len - 1))).2) =
        .ok (coalescedTree s, decrefV s.tree (insertV (coalescedTree s) db)) := by
      rw [hco]
      show rawSetIdx db s.tree (ascend (2 ^ depth s + (s.len - 1))).1
        (emptyAt (ascend (2 ^ depth s + (s.len - 1))).2) = _
      rw [rawSetIdx, hjq, idxDepth_from_depth _ _ hqlt, idxOff_from_depth _ _ hqlt]
      exact hseteq
    obtain ⟨hnoshrink, hshrink⟩ := pop_wf s db R f hn htree hlen hdb
    by_cases hcond : s.len - 1 ≤ currentMaxLen s / 2 ∧ s.maxLen = none
    · obtain ⟨heq, _⟩ := hshrink hcond
      rw [heq]
      exact ⟨rfl, rfl, rfl, hdivj, hleft, hstop, hwrite, hco⟩
    · obtain ⟨heq, _⟩ := hnoshrink hcond
      rw [heq]
      exact ⟨rfl, rfl, rfl, hdivj, hleft, hstop, hwrite, hco⟩

/-! ## Claim C7 -/

/-- C7: extend/shrink idempotence.  On a well-formed dynamic-mode vector,
`push(v)` followed by `pop()` succeeds, the pop returns `Some v`, and the
vector state (root, length, mode) and the backend store — hence the
refcount multiset — are restored exactly. -/
theorem push_pop_restores (s : VecS) (db : DB) (R : Multiset Val) (f : Nat → Val) (v : Val)
    (hdyn : s.maxLen = none)
    (htree : s.tree = mkTreeF (depth s) (zeroPad f s.len))
    (hdb : wfDB db (s.tree ::ₘ R)) :
    ∃ (s1 : VecS) (db1 : DB) (s2 : VecS) (db2 : DB),
      Vpush db s v = (.ok (), s1, db1) ∧
      Vpop db1 s1 = (.ok (some v), s2, db2) ∧
      s2 = s ∧ db2 = db := by
  have hlenle : s.len ≤ currentMaxLen s := by
    rw [cml_dyn s hdyn]
    exact dW_ge s.len
  have hlen : s.len ≤ 2 ^ depth s := by
    have := cml_le_pow_depth s
    omega
  have hval : updF f s.len v (s.len + 1 - 1) = v := by
    simp [updF]
  obtain ⟨_, hb, hc⟩ := push_wf s db R f v htree hlen hdb
  by_cases hfull : s.len = currentMaxLen s
  · -- at capacity: extend, write, then the pop shrinks back
    obtain ⟨db4, heq, hwf4, hcml4, hdep4⟩ := hb hfull hdyn
    have htree1 : (⟨mkTreeF (depth s + 1) (zeroPad (updF f s.len v) (s.len + 1)),
        s.len + 1, s.maxLen⟩ : VecS).tree =
        mkTreeF (depth ⟨mkTreeF (depth s + 1) (zeroPad (updF f s.len v) (s.len + 1)),
          s.len + 1, s.maxLen⟩)
        (zeroPad (updF f s.len v) (s.len + 1)) := by
      rw [hdep4]
    have hlen1 : s.len + 1 ≤ 2 ^ depth (⟨mkTreeF (depth s + 1)
        (zeroPad (updF f s.len v) (s.len + 1)), s.len + 1, s.maxLen⟩ : VecS) := by
      rw [hdep4]
      have h2 : (2:Nat) ^ (depth s + 1) = 2 ^ depth s + 2 ^ depth s := by ring
      have hp : (0:Nat) < 2 ^ depth s := Nat.pos_pow_of_pos _ (by omega)
      omega
    obtain ⟨_, hsh⟩ := pop_wf ⟨mkTreeF (depth s + 1) (zeroPad (updF f s.len v) (s.len + 1)),
      s.len + 1, s.maxLen⟩ db4 R (updF f s.len v)
      (by show 0 < s.len + 1; omega) htree1 hlen1 hwf4
    have hcond : s.len + 1 - 1 ≤ currentMaxLen (⟨mkTreeF (depth s + 1)
        (zeroPad (updF f s.len v) (s.len + 1)), s.len + 1, s.maxLen⟩ : VecS) / 2 ∧
        (⟨mkTreeF (depth s + 1) (zeroPad (updF f s.len v) (s.len + 1)),
          s.len + 1, s.maxLen⟩ : VecS).maxLen = none := by
      refine ⟨?_, hdyn⟩
      rw [hcml4]
      have h2 : 2 * currentMaxLen s / 2 = currentMaxLen s :=
        Nat.mul_div_cancel_left _ (by omega)
      omega
    obtain ⟨heqpop, hwfpop⟩ := hsh hcond
    have htr : mkTreeF (depth (⟨mkTreeF (depth s + 1) (zeroPad (updF f s.len v) (s.len + 1)),
        s.len + 1, s.maxLen⟩ : VecS)) (zeroPad (updF f s.len v) (s.len + 1 - 1)) =
        mkTreeF (depth s + 1) (zeroPad f s.len) := by
      rw [hdep4]
      exact mkTreeF_congr _ _ _ fun i _ => zeroPad_updF_lower f s.len v i
    have hshrunk : shrinkTreeOf (mkTreeF (depth s + 1) (zeroPad f s.len)) = s.tree := by
      rw [shrinkTreeOf, getP_top, htree]
    rw [htr, hshrunk, hval] at heqpop
    rw [htr, hshrunk] at hwfpop
    refine ⟨_, _, _, _, heq, heqpop, rfl, ?_⟩
    exact wfDB_unique _ db (s.tree ::ₘ R) hwfpop hdb
  · -- below capacity: plain write, then the pop undoes it
    have hlt : s.len < currentMaxLen s := by omega
    obtain ⟨db2, heq, hwf2, hdep2⟩ := hc hlt
    have htree1 : (⟨mkTreeF (depth s) (zeroPad (updF f s.len v) (s.len + 1)),
        s.len + 1, s.maxLen⟩ : VecS).tree =
        mkTreeF (depth ⟨mkTreeF (depth s) (zeroPad (updF f s.len v) (s.len + 1)),
          s.len + 1, s.maxLen⟩)
        (zeroPad (updF f s.len v) (s.len + 1)) := by
      rw [hdep2]
    have hlen1 : s.len + 1 ≤ 2 ^ depth (⟨mkTreeF (depth s)
        (zeroPad (updF f s.len v) (s.len + 1)), s.len + 1, s.maxLen⟩ : VecS) := by
      rw [hdep2]
      have := cml_le_pow_depth s
      omega
    obtain ⟨hnsh, hsh⟩ := pop_wf ⟨mkTreeF (depth s) (zeroPad (updF f s.len v) (s.len + 1)),
      s.len + 1, s.maxLen⟩ db2 R (updF f s.len v)
      (by show 0 < s.len + 1; omega) htree1 hlen1 hwf2
    have hcml1 : currentMaxLen (⟨mkTreeF (depth s) (zeroPad (updF f s.len v) (s.len + 1)),
        s.len + 1, s.maxLen⟩ : VecS) = currentMaxLen s := by
      rw [cml_dyn (⟨mkTreeF (depth s) (zeroPad (updF f s.len v) (s.len + 1)),
        s.len + 1, s.maxLen⟩ : VecS) hdyn]
      show doubleWhileLt (s.len + 1) 1 = currentMaxLen s
      rw [cml_dyn s hdyn]
      refine dW_succ_eq s.len ?_
      rw [← cml_dyn s hdyn]
      exact hlt
    have htr : mkTreeF (depth (⟨mkTreeF (depth s) (zeroPad (updF f s.len v) (s.len + 1)),
        s.len + 1, s.maxLen⟩ : VecS)) (zeroPad (updF f s.len v) (s.len + 1 - 1)) =
        mkTreeF (depth s) (zeroPad f s.len) := by
      rw [hdep2]
      exact mkTreeF_congr _ _ _ fun i _ => zeroPad_updF_lower f s.len v i
    by_cases hzero : s.len = 0
    · -- empty vector: the pop still shrinks (trivially)
      have hcond : s.len + 1 - 1 ≤ currentMaxLen (⟨mkTreeF (depth s)
          (zeroPad (updF f s.len v) (s.len + 1)), s.len + 1, s.maxLen⟩ : VecS) / 2 ∧
          (⟨mkTreeF (depth s) (zeroPad (updF f s.len v) (s.len + 1)),
            s.len + 1, s.maxLen⟩ : VecS).maxLen = none := by
        refine ⟨?_, hdyn⟩
        omega
      obtain ⟨heqpop, hwfpop⟩ := hsh hcond
      have hD0 : depth s = 0 := by
        have h1 := pow_depth_dyn s hdyn
        rw [cml_dyn s hdyn, hzero] at h1
        have h2 : doubleWhileLt 0 1 = 1 := rfl
        rw [h2] at h1
        cases hd : depth s with
        | zero => rfl
        | succ k =>
          rw [hd] at h1
          have h3 : (2:Nat) ^ (k + 1) = 2 * 2 ^ k := by ring
          have h4 : (1:Nat) ≤ 2 ^ k := Nat.one_le_two_pow
          omega
      have hshrunk : shrinkTreeOf (mkTreeF (depth s) (zeroPad f s.len)) = s.tree := by
        rw [htree, hD0, hzero]
        show shrinkTreeOf (zeroPad f 0 0) = zeroPad f 0 0
        simp [shrinkTreeOf, zeroPad, getP]
      rw [htr, hshrunk, hval] at heqpop
      rw [htr, hshrunk] at hwfpop
      refine ⟨_, _, _, _, heq, heqpop, rfl, ?_⟩
      exact wfDB_unique _ db (s.tree ::ₘ R) hwfpop hdb
    · -- non-empty: the shrink condition fails (minimality of the capacity)
      have hcond : ¬(s.len + 1 - 1 ≤ currentMaxLen (⟨mkTreeF (depth s)
          (zeroPad (updF f s.len v) (s.len + 1)), s.len + 1, s.maxLen⟩ : VecS) / 2 ∧
          (⟨mkTreeF (depth s) (zeroPad (updF f s.len v) (s.len + 1)),
            s.len + 1, s.maxLen⟩ : VecS).maxLen = none) := by
        rintro ⟨hc1, _⟩
        rw [hcml1] at hc1
        have h1 := pow_depth_dyn s hdyn
        cases hd : depth s with
        | zero =>
          rw [hd] at h1
          have h2 : (2:Nat) ^ 0 = 1 := rfl
          omega
        | succ K =>
          rw [hd] at h1
          have h2 : doubleWhileLt s.len 1 = 2 ^ (K + 1) := by
            rw [← cml_dyn s hdyn, ← h1]
          have h3 := dW_half_lt s.len K h2
          rw [← h1, pow_succ_div_two] at hc1
          omega
      obtain ⟨heqpop, hwfpop⟩ := hnsh hcond
      rw [htr, hval, ← htree] at heqpop
      rw [htr, ← htree] at hwfpop
      refine ⟨_, _, _, _, heq, heqpop, rfl, ?_⟩
      exact wfDB_unique _ db (s.tree ::ₘ R) hwfpop hdb

/-! ## Claim C3, amended -/

/-- C3 amended: what `current_max_len()` actually returns.  In capped mode
it is the cap `M` itself, unrounded (so not necessarily a power of two —
see the counterexample); in dynamic mode it is `2^depth`, the least power
of two at or above `max(1, len)`, hence positive, at least `len`, and
minimal among powers of two bounding `len`. -/
theorem currentMaxLen_actual (s : VecS) :
    (∀ M, s.maxLen = some M → currentMaxLen s = M) ∧
    (s.maxLen = none →
      currentMaxLen s = 2 ^ depth s ∧
      s.len ≤ currentMaxLen s ∧
      ∀ j, s.len ≤ 2 ^ j → currentMaxLen s ≤ 2 ^ j) := by
  refine ⟨fun M h => cml_capped s M h, fun h => ⟨(pow_depth_dyn s h).symm, ?_, ?_⟩⟩
  · rw [cml_dyn s h]
    exact dW_ge s.len
  · intro j hj
    rw [cml_dyn s h]
    exact dW_le_pow _ j hj

/-- C3 amended, instantiated: a capped vector with cap `5` and length `3`
reports `current_max_len = 5`; a dynamic vector of length `3` reports
`2^depth`. -/
theorem currentMaxLen_actual_witness :
    currentMaxLen ⟨emptyAt 3, 3, some 5⟩ = 5 ∧
    currentMaxLen ⟨.End zeroBytes, 3, none⟩ = 2 ^ depth ⟨.End zeroBytes, 3, none⟩ :=
  ⟨(currentMaxLen_actual ⟨emptyAt 3, 3, some 5⟩).1 5 rfl,
   ((currentMaxLen_actual ⟨.End zeroBytes, 3, none⟩).2 rfl).1⟩

/-! ## Claim C8, amended -/

/-- C8 amended: which failures leave the vector unchanged.  Guard failures
do: a push at capped capacity fails `AccessOverflowed` with no state or
store change, a pop at `len = 0` returns `None` unchanged, and `get`/`set`
beyond `len` fail `AccessOverflowed` unchanged.  But a push whose backend
leaf write fails (below capacity, so no extend is involved) returns with
`len` already incremented — the state is `{ s with len := len + 1 }`, not
`s`, contradicting the claimed frame condition. -/
theorem failed_op_effects (s : VecS) (db : DB) (v : Val) :
    (s.len = currentMaxLen s → s.maxLen.isSome →
      Vpush db s v = (.error .AccessOverflowed, s, db)) ∧
    (s.len = 0 → Vpop db s = (.ok none, s, db)) ∧
    (∀ i, s.len ≤ i →
      Vget db s i = .error .AccessOverflowed ∧
      Vset db s i v = (.error .AccessOverflowed, s, db)) ∧
    (∀ e s2 db2, s.len ≠ currentMaxLen s →
      Vpush db s v = (.error e, s2, db2) →
      s2 = { s with len := s.len + 1 } ∧ db2 = db) := by
  refine ⟨?_, ?_, ?_, ?_⟩
  · intro hfull hsome
    simp only [Vpush]
    rw [if_pos hfull, if_pos hsome]
  · intro h0
    simp [Vpop, h0]
  · intro i hi
    constructor
    · simp only [Vget]
      rw [if_pos hi]
    · simp only [Vset]
      rw [if_pos hi]
  · intro e s2 db2 hne hpush
    simp only [Vpush] at hpush
    rw [if_neg hne] at hpush
    split at hpush
    · injection hpush with h1 h2
      injection h2 with h2a h2b
      exact ⟨h2a.symm, h2b.symm⟩
    · injection hpush with h1 h2
      exact Except.noConfusion h1

/-- C8 amended, instantiated: the capped-full push and the empty pop leave
their vectors untouched, while a push whose leaf write fails on an empty
(corrupted) store comes back with `len = 2` instead of `1`. -/
theorem failed_op_effects_witness :
    Vpush 0 ⟨.End zeroBytes, 1, some 1⟩ leafA =
      (.error .AccessOverflowed, ⟨.End zeroBytes, 1, some 1⟩, 0) ∧
    Vpop 0 ⟨.End zeroBytes, 0, none⟩ = (.ok none, ⟨.End zeroBytes, 0, none⟩, 0) ∧
    Vget 0 ⟨.End zeroBytes, 1, some 1⟩ 1 = .error .AccessOverflowed ∧
    ((⟨.Intermediate (.End zeroBytes) (.End zeroBytes), 2, some 2⟩ : VecS) =
        { (⟨.Intermediate (.End zeroBytes) (.End zeroBytes), 1, some 2⟩ : VecS) with
          len := 1 + 1 } ∧
      (0 : DB) = 0) :=
  ⟨(failed_op_effects ⟨.End zeroBytes, 1, some 1⟩ 0 leafA).1 (by decide) (by decide),
   (failed_op_effects ⟨.End zeroBytes, 0, none⟩ 0 leafA).2.1 rfl,
   ((failed_op_effects ⟨.End zeroBytes, 1, some 1⟩ 0 leafA).2.2.1 1 (by decide)).1,
   (failed_op_effects ⟨.Intermediate (.End zeroBytes) (.End zeroBytes), 1, some 2⟩ 0
      (.End [7])).2.2.2 .CorruptedDatabase _ _ (by decide) (by decide)⟩

/-! ## Claim C10 -/

/-- After `create` installs `empty_at[d]` and retains it, `get` reads the
zero leaf at every index inside the capacity `2^d` (the regime where
`Index::from_depth` is inside its §4.1 contract). -/
theorem create_get_zero_aux (db : DB) (R : Multiset Val) (len : Nat)
    (mL : Option Nat) (d : Nat) (hwf : wfDB db R)
    (hdep : depth (⟨emptyAt d, len, mL⟩ : VecS) = d) :
    ∀ i, i < len → i < 2 ^ d →
      Vget (insertV (emptyAt d) db) ⟨emptyAt d, len, mL⟩ i =
        .ok (.End zeroBytes) := by
  intro i hi hic
  have hwf2 : wfDB (insertV (emptyAt d) db) (emptyAt d ::ₘ R) :=
    wfDB_insertV _ db R hwf
  have hroot : rootedIn (emptyAt d) (insertV (emptyAt d) db) :=
    rootedIn_of_wf_mem _ _ _ hwf2 (Multiset.mem_cons_self _ _)
  have hri : rawIndex (⟨emptyAt d, len, mL⟩ : VecS) i = 2 ^ d + i := by
    show 2 ^ depth _ + i = _
    rw [hdep]
  have hgi : rawGetIdx (insertV (emptyAt d) db) (emptyAt d) (2 ^ d + i) =
      .ok (some (.End zeroBytes)) := by
    simp only [rawGetIdx]
    rw [idxDepth_from_depth _ _ hic, idxOff_from_depth _ _ hic,
      walkGet_eq_getP _ _ hwf2 _ _ _ hroot, emptyAt_mkTreeF,
      getP_mkTreeF _ _ _ hic]
  simp only [Vget]
  rw [if_neg (show ¬(len ≤ i) by omega), hri, hgi]

/-- C10: the provable part of the claim, in both modes.  `create` never
writes per-element leaves: whenever the source's guard lets it through, it
installs the memoized `empty_at[depth]` as the sole root and retains one
reference to it, and `get` then reads the zero leaf at every index inside
the tree's capacity — in capped mode at every `i < len` with
`i < 2^depth`, and in dynamic mode at every `i < len` outright (the
capacity covers `len` there).  For capped vectors the inverted guard also
admits `len` beyond the capacity, and `get` at those indices calls
`Index::from_depth(i, depth)` outside its documented `offset < 2^depth`
contract (spec §4.1) — an out-of-contract call of code absent from the
repository, so no zero-leaf guarantee exists there (the code-bug record of
this claim). -/
theorem create_installs_empty_root (db : DB) (R : Multiset Val) (len : Nat)
    (hwf : wfDB db R) :
    (∀ M, ¬(len < M ∨ M = 0) →
      Vcreate db len (some M) =
        (.ok ⟨emptyAt (depthCount M 1), len, some M⟩,
          insertV (emptyAt (depthCount M 1)) db) ∧
      ∀ i, i < len → i < 2 ^ depthCount M 1 →
        Vget (insertV (emptyAt (depthCount M 1)) db)
          ⟨emptyAt (depthCount M 1), len, some M⟩ i = .ok (.End zeroBytes)) ∧
    (Vcreate db len none =
        (.ok ⟨emptyAt (depthCount len 1), len, none⟩,
          insertV (emptyAt (depthCount len 1)) db) ∧
      ∀ i, i < len →
        Vget (insertV (emptyAt (depthCount len 1)) db)
          ⟨emptyAt (depthCount len 1), len, none⟩ i = .ok (.End zeroBytes)) := by
  constructor
  · intro M hg
    have hdep : depth (⟨emptyAt (depthCount M 1), len, some M⟩ : VecS) =
        depthCount M 1 := by
      show depthCount (currentMaxLen _) 1 = _
      rw [cml_capped _ M rfl]
    constructor
    · simp only [Vcreate]
      rw [if_neg hg, rawSetIdx_end_root]
    · exact create_get_zero_aux db R len (some M) (depthCount M 1) hwf hdep
  · have hdep : depth (⟨emptyAt (depthCount len 1), len, none⟩ : VecS) =
        depthCount len 1 := by
      show depthCount (currentMaxLen ⟨emptyAt (depthCount len 1), len, none⟩) 1 = _
      rw [cml_dyn ⟨emptyAt (depthCount len 1), len, none⟩ rfl]
      show depthCount (doubleWhileLt len 1) 1 = depthCount len 1
      rw [← pow_depthCount, depthCount_pow_self]
    constructor
    · simp only [Vcreate]
      rw [rawSetIdx_end_root]
    · intro i hi
      have hcap : len ≤ 2 ^ depthCount len 1 := by
        rw [pow_depthCount]
        exact dW_ge len
      exact create_get_zero_aux db R len none (depthCount len 1) hwf hdep i hi
        (by omega)

/-- C10 instantiated in both modes: `create(∅, 2, Some(2))` installs
`empty_at[1]` and `get` at index `1` (inside capacity `2`) reads the zero
leaf; `create(∅, 3, None)` installs `empty_at[2]` and `get` at index `2`
reads the zero leaf. -/
theorem create_installs_empty_root_witness :
    (Vcreate 0 2 (some 2) =
        (.ok ⟨emptyAt (depthCount 2 1), 2, some 2⟩,
          insertV (emptyAt (depthCount 2 1)) 0) ∧
      Vget (insertV (emptyAt (depthCount 2 1)) 0)
        ⟨emptyAt (depthCount 2 1), 2, some 2⟩ 1 = .ok (.End zeroBytes)) ∧
    (Vcreate 0 3 none =
        (.ok ⟨emptyAt (depthCount 3 1), 3, none⟩,
          insertV (emptyAt (depthCount 3 1)) 0) ∧
      Vget (insertV (emptyAt (depthCount 3 1)) 0)
        ⟨emptyAt (depthCount 3 1), 3, none⟩ 2 = .ok (.End zeroBytes)) := by
  have h1 := (create_installs_empty_root 0 0 2 wfDB_empty).1 2 (by omega)
  have h2 := (create_installs_empty_root 0 0 3 wfDB_empty).2
  exact ⟨⟨h1.1, h1.2 1 (by omega) (by decide)⟩, ⟨h2.1, h2.2 2 (by omega)⟩⟩

/-! ## Claim C9 -/

/-- C9: the `bool` encoder packs bits LSB-first within each byte.  For
every `Vec<bool>` input and every in-range index `i`, bit `i % 8` of byte
`i / 8` of the packed byte list equals source bit `i`, the packed list has
`⌈len/8⌉` bytes (which then go through the `u8` path), and concretely
`[T,F,T,T,F,F,F,F,T]` at `max_len = 9` encodes to the single depth-0 chunk
`0x0D, 0x01` followed by 30 zero bytes. -/
theorem bool_bits_lsb_first (v : List Bool) (i : Nat) (h : i < v.length) :
    ((boolPackBytes v).getD (i / 8) 0).testBit (i % 8) = v.getD i false ∧
    (boolPackBytes v).length = (v.length + 7) / 8 ∧
    (intoVectorTreeBool [true, false, true, true, false, false, false, false, true]
      0 (some 9)).1 = .End ((13 : Nat) :: 1 :: List.replicate 30 0) := by
  obtain ⟨hlen, hbit⟩ := boolPack_fold v v.length (Nat.le_refl _)
  have hb := hbit i
  rw [decide_eq_true h, Bool.true_and] at hb
  exact ⟨hb, hlen, by decide⟩

/-- C9 instantiated at `v = [true, false, true]`, `i = 2`: bit 2 of byte 0
is set, and the encoder example checks out. -/
theorem bool_bits_lsb_first_witness :
    ((boolPackBytes [true, false, true]).getD (2 / 8) 0).testBit (2 % 8) =
      ([true, false, true] : List Bool).getD 2 false ∧
    (boolPackBytes [true, false, true]).length =
      (([true, false, true] : List Bool).length + 7) / 8 ∧
    (intoVectorTreeBool [true, false, true, true, false, false, false, false, true]
      0 (some 9)).1 = .End ((13 : Nat) :: 1 :: List.replicate 30 0) :=
  bool_bits_lsb_first [true, false, true] 2 (by decide)

/-! ## Witnesses for the well-formedness-conditioned claims -/

/-- C5 instantiated: pushing `b` onto the full one-element dynamic vector
`⟨a, 1, None⟩` over the matching one-reference store extends (capacity
`1 → 2`, depth `0 → 1`) and writes `b` at offset `1`. -/
theorem push_spec_witness :
    (Vpush 0 ⟨leafA, 1, none⟩ leafB).1 = .ok () ∧
    (Vpush 0 ⟨leafA, 1, none⟩ leafB).2.1.len = 1 + 1 ∧
    currentMaxLen (Vpush 0 ⟨leafA, 1, none⟩ leafB).2.1 =
      2 * currentMaxLen ⟨leafA, 1, none⟩ ∧
    depth (Vpush 0 ⟨leafA, 1, none⟩ leafB).2.1 = depth ⟨leafA, 1, none⟩ + 1 ∧
    getP (Vpush 0 ⟨leafA, 1, none⟩ leafB).2.1.tree
      (depth (Vpush 0 ⟨leafA, 1, none⟩ leafB).2.1) 1 = some leafB := by
  have h := push_spec ⟨leafA, 1, none⟩ 0 0 (fun _ => leafA) leafB rfl (by decide)
    ((wfDB_cons_end [1] 0 0).mpr wfDB_empty)
  obtain ⟨-, h2, -⟩ := h
  obtain ⟨-, h3, h4, h5, h6, h7⟩ := h2 ⟨by decide, rfl⟩
  exact ⟨h3, h4, h5, h6, h7⟩

/-- C4 instantiated: popping the one-element dynamic vector `⟨a, 1, None⟩`
over the matching store returns `a`, leaves length `0`, and the coalesced
tree is the canonical empty tree. -/
theorem pop_spec_witness :
    (Vpop 0 ⟨leafA, 1, none⟩).1 = .ok (some leafA) ∧
    (Vpop 0 ⟨leafA, 1, none⟩).2.1.len = 1 - 1 ∧
    coalescedTree ⟨leafA, 1, none⟩ =
      mkTreeF (depth ⟨leafA, 1, none⟩) (zeroPad (fun _ => leafA) (1 - 1)) := by
  have h := pop_spec ⟨leafA, 1, none⟩ 0 0 (fun _ => leafA) rfl (by decide)
    ((wfDB_cons_end [1] 0 0).mpr wfDB_empty)
  obtain ⟨-, h2⟩ := h
  obtain ⟨h1, hl, -, -, -, -, -, hc⟩ := h2 (by decide)
  exact ⟨h1, hl, hc⟩

/-- C7 instantiated: on the empty dynamic vector over the empty store,
push `a` then pop returns `a` and restores state and store exactly. -/
theorem push_pop_restores_witness :
    ∃ (s1 : VecS) (db1 : DB) (s2 : VecS) (db2 : DB),
      Vpush 0 ⟨.End zeroBytes, 0, none⟩ leafA = (.ok (), s1, db1) ∧
      Vpop db1 s1 = (.ok (some leafA), s2, db2) ∧
      s2 = ⟨.End zeroBytes, 0, none⟩ ∧ db2 = 0 :=
  push_pop_restores ⟨.End zeroBytes, 0, none⟩ 0 0 (fun _ => .End zeroBytes) leafA rfl rfl
    ((wfDB_cons_end zeroBytes 0 0).mpr wfDB_empty)

end Merklist
